import Mathlib

/-!
Verification of the sopp RDF triple store core.

The development shallowly embeds the triple-storage engine of `db.go` and the
term definitions of `rdf/term.go`:

Go byte strings (`[]byte`, `string`) are modelled as `List Nat` of byte values.
The BoltDB buckets are modelled as association lists kept sorted by the byte
order of their keys (big-endian 4- and 8-byte keys order exactly as the

numbers and number pairs they encode, so keys are `Nat` and `Nat × Nat`).
Roaring bitmaps are modelled as strictly sorted lists of their members; the
roaring on-disk serialization is a deterministic function of the member set,
so two bitmap values are byte-identical exactly when the member lists agree.
Fallible operations return `Except Err`, and a whole update transaction is
rolled back on error exactly as `bolt.DB.Update` does.
-/

/-- Go byte strings are modelled as lists of byte values. -/
abbrev Bytes := List Nat

/-- Bytes of an ASCII Lean string (used for the datatype URI constants). -/
def strBytes (s : String) : Bytes := s.toList.map Char.toNat

/-- rdf.Term (`rdf/term.go`): a URI, or a Literal with value, language and
datatype. `rdf.URI` is a plain string; `rdf.Literal` carries the three
fields `value`, `language`, `datatype`. -/
inductive Term where
  | uri (u : Bytes)
  | lit (value : Bytes) (language : Bytes) (datatype : Bytes)
deriving DecidableEq, Repr

/-- rdf.Triple: subject and predicate are URIs, the object is any term. -/
structure Triple where
  subj : Bytes
  pred : Bytes
  obj : Term
deriving DecidableEq, Repr

-- The datatype URI constants of rdf/term.go.
def RDFtype : Bytes := strBytes "http://www.w3.org/1999/02/22-rdf-syntax-ns#type"
def RDFlangString : Bytes := strBytes "http://www.w3.org/1999/02/22-rdf-syntax-ns#langString"
def XSDboolean : Bytes := strBytes "http://www.w3.org/2001/XMLSchema#boolean"
def XSDbyte : Bytes := strBytes "http://www.w3.org/2001/XMLSchema#byte"
def XSDint : Bytes := strBytes "http://www.w3.org/2001/XMLSchema#int"
def XSDshort : Bytes := strBytes "http://www.w3.org/2001/XMLSchema#short"
def XSDlong : Bytes := strBytes "http://www.w3.org/2001/XMLSchema#long"
def XSDinteger : Bytes := strBytes "http://www.w3.org/2001/XMLSchema#integer"
def XSDstring : Bytes := strBytes "http://www.w3.org/2001/XMLSchema#string"
def XSDunsignedShort : Bytes := strBytes "http://www.w3.org/2001/XMLSchema#unsignedShort"
def XSDunsignedInt : Bytes := strBytes "http://www.w3.org/2001/XMLSchema#unsignedInt"
def XSDunsignedLong : Bytes := strBytes "http://www.w3.org/2001/XMLSchema#unsignedLong"
def XSDunsignedByte : Bytes := strBytes "http://www.w3.org/2001/XMLSchema#unsignedByte"
def XSDfloat : Bytes := strBytes "http://www.w3.org/2001/XMLSchema#float"
def XSDdouble : Bytes := strBytes "http://www.w3.org/2001/XMLSchema#double"
def XSDdateTimeStamp : Bytes := strBytes "http://www.w3.org/2001/XMLSchema#dateTimeStamp"

/-- The byte values stripped by `rdf.NewURI`: the characters
0x3C 0x3E 0x22 0x7B 0x7D 0x7C 0x5E 0x60 0x5C. -/
def strippedChars : Bytes := [0x3C, 0x3E, 0x22, 0x7B, 0x7D, 0x7C, 0x5E, 0x60, 0x5C]

/-- rdf.NewURI: keeps a character exactly when it is above 0x20 and not in
the stripped set. The Go loop ranges over runes; on valid UTF-8 every byte of
a multi-byte rune is above 0x20 and outside the (ASCII) stripped set, so this
byte-level filter computes the same byte string. -/
def NewURI (b : Bytes) : Bytes :=
  b.filter (fun ch => decide (0x20 < ch) && !(strippedChars.contains ch))

/-- The error kinds of the core. `notFound` is ErrNotFound, `dbFull` is
ErrDBFull, `invalidEncoding` the decode errors, `bug` the internal
"bug: ..." errors, and `panicked` marks a Go runtime panic (such as an
out-of-range slice index), which is not an error return at all. -/
inductive Err where
  | notFound
  | dbFull
  | invalidEncoding
  | bug
  | panicked
deriving DecidableEq, Repr

/-- DB.encode (db.go lines 812-881). The first byte tags the term kind; a
base-prefixed URI stores only the suffix; lang-tagged and custom-datatype
literals store a one-byte length (`uint8(ll)`, hence the `% 256`). -/
def encode (base : Bytes) : Term → Bytes
  | .uri u =>
    if base.isPrefixOf u then 0x00 :: u.drop base.length
    else 0x01 :: u
  | .lit v lang dt =>
    if dt = XSDstring then 0x02 :: v
    else if dt = RDFlangString then 0x03 :: (lang.length % 256) :: (lang ++ v)
    else if dt = XSDboolean then 0x04 :: v
    else if dt = XSDbyte then 0x05 :: v
    else if dt = XSDint then 0x06 :: v
    else if dt = XSDshort then 0x07 :: v
    else if dt = XSDlong then 0x08 :: v
    else if dt = XSDinteger then 0x09 :: v
    else if dt = XSDunsignedShort then 0x0A :: v
    else if dt = XSDunsignedInt then 0x0B :: v
    else if dt = XSDunsignedLong then 0x0C :: v
    else if dt = XSDunsignedByte then 0x0D :: v
    else if dt = XSDfloat then 0x0E :: v
    else if dt = XSDdouble then 0x0F :: v
    else if dt = XSDdateTimeStamp then 0x10 :: v
    else 0xFF :: (dt.length % 256) :: (dt ++ v)

/-- DB.decode (db.go lines 883-947). For tag 0x03 the code guards
`len(b) < 2` and `len(b) < ll+2`. For tag 0xFF it guards `len(b) < 2` and
`len(b) < ll` only, and then evaluates `b[ll+2:]` and `b[2:2+ll]`; when
`ll <= len(b) < ll+2` those slice expressions are out of range and Go
panics, modelled as `.error .panicked`. -/
def decode (base : Bytes) (b : Bytes) : Except Err Term :=
  match b with
  | [] => .error .invalidEncoding
  | tag :: rest =>
    if tag = 0x00 then .ok (.uri (base ++ rest))
    else if tag = 0x01 then .ok (.uri rest)
    else if tag = 0x02 then .ok (.lit rest [] XSDstring)
    else if tag = 0x03 then
      match rest with
      | [] => .error .invalidEncoding
      | ll :: rest2 =>
        if rest2.length < ll then .error .invalidEncoding
        else .ok (.lit (rest2.drop ll) (rest2.take ll) RDFlangString)
    else if tag = 0x04 then .ok (.lit rest [] XSDboolean)
    else if tag = 0x05 then .ok (.lit rest [] XSDbyte)
    else if tag = 0x06 then .ok (.lit rest [] XSDint)
    else if tag = 0x07 then .ok (.lit rest [] XSDshort)
    else if tag = 0x08 then .ok (.lit rest [] XSDlong)
    else if tag = 0x09 then .ok (.lit rest [] XSDinteger)
    else if tag = 0x0A then .ok (.lit rest [] XSDunsignedShort)
    else if tag = 0x0B then .ok (.lit rest [] XSDunsignedInt)
    else if tag = 0x0C then .ok (.lit rest [] XSDunsignedLong)
    else if tag = 0x0D then .ok (.lit rest [] XSDunsignedByte)
    else if tag = 0x0E then .ok (.lit rest [] XSDfloat)
    else if tag = 0x0F then .ok (.lit rest [] XSDdouble)
    else if tag = 0x10 then .ok (.lit rest [] XSDdateTimeStamp)
    else if tag = 0xFF then
      match rest with
      | [] => .error .invalidEncoding
      | ll :: rest2 =>
        if rest2.length + 2 < ll then .error .invalidEncoding
        else if rest2.length < ll then .error .panicked
        else .ok (.lit (rest2.drop ll) [] (NewURI (rest2.take ll)))
    else .error .invalidEncoding

/-- The datatype URIs that encode to a fixed one-byte tag. -/
def recognizedDatatypes : List Bytes :=
  [XSDstring, RDFlangString, XSDboolean, XSDbyte, XSDint, XSDshort, XSDlong,
   XSDinteger, XSDunsignedShort, XSDunsignedInt, XSDunsignedLong,
   XSDunsignedByte, XSDfloat, XSDdouble, XSDdateTimeStamp]

/-- A term the codec can round-trip: the language tag fits the one length
byte; a non-lang-tagged literal has an empty language (as every literal built
by rdf.NewLiteral or rdf.NewTypedLiteral does); a custom datatype URI fits
the length byte and is untouched by the NewURI character stripping applied
when decoding tag 0xFF. -/
def codecSafe : Term → Prop
  | .uri _ => True
  | .lit _ lang dt =>
    (dt = RDFlangString → lang.length ≤ 255) ∧
    (dt ≠ RDFlangString → lang = []) ∧
    (dt ∉ recognizedDatatypes → dt.length ≤ 255 ∧ NewURI dt = dt)

instance (t : Term) : Decidable (codecSafe t) := by
  cases t <;> (unfold codecSafe; infer_instance)

deriving instance DecidableEq for Except

/-- Bucket lookup (bolt Bucket.Get): the binding of the key, if present. -/
def kvGet {κ α : Type} [DecidableEq κ] : List (κ × α) → κ → Option α
  | [], _ => none
  | (k, v) :: rest, q => if q = k then some v else kvGet rest q

/-- Bucket write (bolt Bucket.Put): replaces the binding of the key, keeping
the list sorted by the strict key order lt (bolt stores keys in byte
order). -/
def kvPut {κ α : Type} [DecidableEq κ] (lt : κ → κ → Bool) :
    List (κ × α) → κ → α → List (κ × α)
  | [], q, v => [(q, v)]
  | (k, w) :: rest, q, v =>
    if lt q k then (q, v) :: (k, w) :: rest
    else if q = k then (q, v) :: rest
    else (k, w) :: kvPut lt rest q v

/-- Bucket delete (bolt Bucket.Delete): removes the binding of the key. -/
def kvDel {κ α : Type} [DecidableEq κ] : List (κ × α) → κ → List (κ × α)
  | [], _ => []
  | (k, w) :: rest, q => if q = k then kvDel rest q else (k, w) :: kvDel rest q

/-- Byte order of big-endian 4-byte keys is numeric order on the ids. -/
def natLt (a b : Nat) : Bool := decide (a < b)

/-- Byte order of 8-byte compound keys is lexicographic on the id pairs. -/
def pairLt (a b : Nat × Nat) : Bool := decide (a.1 < b.1 ∨ (a.1 = b.1 ∧ a.2 < b.2))

/-- Byte-lexicographic order on byte strings (the iterms bucket keys). -/
def bytesLt : Bytes → Bytes → Bool
  | [], [] => false
  | [], _ :: _ => true
  | _ :: _, [] => false
  | a :: arest, b :: brest =>
    if a < b then true else if b < a then false else bytesLt arest brest

/-- roaring Bitmap.CheckedAdd, insertion half: sorted insert of a member.
A serialized roaring bitmap is a deterministic function of the member set,
modelled as the strictly sorted member list itself. -/
def bmAdd : List Nat → Nat → List Nat
  | [], x => [x]
  | y :: ys, x =>
    if x < y then x :: y :: ys
    else if x = y then y :: ys
    else y :: bmAdd ys x

/-- The maximum number of unique RDF terms (db.go MaxTerms). -/
def MaxTerms : Nat := 4294967295

/-- An open DB: the immutable base URI, the five buckets, and the sequence
counter of the terms bucket (bolt Bucket.NextSequence state). -/
structure DB where
  base : Bytes
  terms : List (Nat × Bytes)
  iterms : List (Bytes × Nat)
  spo : List ((Nat × Nat) × List Nat)
  osp : List ((Nat × Nat) × List Nat)
  pos : List ((Nat × Nat) × List Nat)
  seq : Nat
deriving DecidableEq, Repr

/-- A freshly created database: all five buckets exist and are empty, the
terms sequence is at 0. -/
def DB.empty (base : Bytes) : DB := ⟨base, [], [], [], [], [], 0⟩

/-- DB.getIDb (db.go lines 791-800). -/
def DB.getIDb (db : DB) (bt : Bytes) : Except Err Nat :=
  match kvGet db.iterms bt with
  | none => .error .notFound
  | some id => .ok id

/-- DB.getID (db.go lines 779-789): encode, then look up in iterms. -/
def DB.getID (db : DB) (t : Term) : Except Err Nat :=
  db.getIDb (encode db.base t)

/-- DB.getTerm (db.go lines 802-810): read the terms bucket and decode. -/
def DB.getTerm (db : DB) (id : Nat) : Except Err Term :=
  match kvGet db.terms id with
  | none => .error .notFound
  | some b => decode db.base b

/-- DB.addTerm (db.go lines 567-599): return the existing id if the term is
already indexed; otherwise allocate the next sequence number (ErrDBFull
above MaxTerms, before which uint32(n) = n) and write both dictionary
directions. -/
def DB.addTerm (db : DB) (t : Term) : Except Err (Nat × DB) :=
  let bt := encode db.base t
  match kvGet db.iterms bt with
  | some id => .ok (id, db)
  | none =>
    let n := db.seq + 1
    if n > MaxTerms then .error .dbFull
    else
      .ok (n, { db with
        seq := n
        terms := kvPut natLt db.terms n bt
        iterms := kvPut bytesLt db.iterms bt n })

/-- One iteration of the storeTriple loop on one index bucket: read the
bitmap at k1 followed by k2 (fresh if the key is absent), CheckedAdd the
value; the bucket is written back only when the value was new. -/
def idxAdd (m : List ((Nat × Nat) × List Nat)) (k1 k2 v : Nat) :
    Bool × List ((Nat × Nat) × List Nat) :=
  let bm := (kvGet m (k1, k2)).getD []
  if bm.contains v then (false, m)
  else (true, kvPut pairLt m (k1, k2) (bmAdd bm v))

/-- DB.storeTriple (db.go lines 601-648): the SPO, OSP, POS buckets in that
order; as soon as CheckedAdd reports the value already present, the
remaining work is skipped and nil is returned. -/
def DB.storeTriple (db : DB) (s p o : Nat) : Except Err DB :=
  match idxAdd db.spo s p o with
  | (false, _) => .ok db
  | (true, m1) =>
    let db1 := { db with spo := m1 }
    match idxAdd db1.osp o s p with
    | (false, _) => .ok db1
    | (true, m2) =>
      let db2 := { db1 with osp := m2 }
      match idxAdd db2.pos p o s with
      | (false, _) => .ok db2
      | (true, m3) => .ok { db2 with pos := m3 }

/-- One iteration of the removeTriple loop on one index bucket: a missing
key or a missing member reports ErrNotFound; an emptied bitmap deletes the
key, otherwise the bitmap is rewritten. (CheckedRemove removes the one
occurrence; on the duplicate-free member list this is a filter.) -/
def idxRemove (m : List ((Nat × Nat) × List Nat)) (k1 k2 v : Nat) :
    Except Err (List ((Nat × Nat) × List Nat)) :=
  match kvGet m (k1, k2) with
  | none => .error .notFound
  | some bm =>
    if bm.contains v then
      if (bm.filter (fun y => y ≠ v)).length = 0 then .ok (kvDel m (k1, k2))
      else .ok (kvPut pairLt m (k1, k2) (bm.filter (fun y => y ≠ v)))
    else .error .notFound

/-- The loop of notInIndex (db.go lines 766-777) after the seek: walk the
keys comparing the first four key bytes against the id. -/
def notInIndexLoop : List ((Nat × Nat) × List Nat) → Nat → Bool
  | [], _ => true
  | (k, _) :: rest, id =>
    if k.1 = id then false
    else if id < k.1 then true
    else notInIndexLoop rest id

/-- notInIndex (db.go lines 766-777): seek the cursor to the 4-byte key
id-1 — uint32 arithmetic, so id = 0 wraps to 0xFFFFFFFF — and walk forward.
A seek to a 4-byte value positions at the first 8-byte key whose first four
bytes are at least that value. -/
def notInIndex (m : List ((Nat × Nat) × List Nat)) (id : Nat) : Bool :=
  notInIndexLoop
    (m.dropWhile (fun e => decide (e.1.1 < (id + 4294967295) % 4294967296))) id

/-- DB.removeTerm (db.go lines 713-730): an absent terms entry is the
"bug: removeTerm: Term does not exist" error; otherwise both dictionary
directions are deleted. -/
def DB.removeTerm (db : DB) (termID : Nat) : Except Err DB :=
  match kvGet db.terms termID with
  | none => .error .bug
  | some term =>
    .ok { db with terms := kvDel db.terms termID, iterms := kvDel db.iterms term }

/-- unique (db.go lines 753-764): the distinct ids among s, p, o. -/
def unique (s p o : Nat) : List Nat :=
  [s] ++ (if p ≠ s then [p] else []) ++ (if o ≠ s ∧ o ≠ p then [o] else [])

/-- The loop of removeOrphanedTerms over the distinct ids: remove each term
that no longer has a key starting with its id in any of the three indices.
removeTerm on an already-deleted term reports the bug error directly. -/
def gcTerms (db : DB) : List Nat → Except Err DB
  | [] => .ok db
  | id :: rest =>
    if notInIndex db.spo id && notInIndex db.osp id && notInIndex db.pos id then
      match db.removeTerm id with
      | .error e => .error e
      | .ok db2 => gcTerms db2 rest
    else gcTerms db rest

/-- DB.removeOrphanedTerms (db.go lines 734-750). -/
def DB.removeOrphanedTerms (db : DB) (s p o : Nat) : Except Err DB :=
  gcTerms db (unique s p o)

/-- DB.removeTriple (db.go lines 652-711): remove from all three indices in
order, then garbage-collect orphaned terms. -/
def DB.removeTriple (db : DB) (s p o : Nat) : Except Err DB :=
  match idxRemove db.spo s p o with
  | .error e => .error e
  | .ok m1 =>
    match idxRemove db.osp o s p with
    | .error e => .error e
    | .ok m2 =>
      match idxRemove db.pos p o s with
      | .error e => .error e
      | .ok m3 =>
        DB.removeOrphanedTerms { db with spo := m1, osp := m2, pos := m3 } s p o

/-- The body of the Insert transaction (db.go lines 157-178). -/
def DB.insertTx (db : DB) (tr : Triple) : Except Err DB :=
  match db.addTerm (.uri tr.subj) with
  | .error e => .error e
  | .ok (sID, db1) =>
    match db1.addTerm (.uri tr.pred) with
    | .error e => .error e
    | .ok (pID, db2) =>
      match db2.addTerm tr.obj with
      | .error e => .error e
      | .ok (oID, db3) => db3.storeTriple sID pID oID

/-- DB.Insert: bolt Update commits the new state, or rolls every write back
on error, leaving the state untouched and returning the error. -/
def DB.Insert (db : DB) (tr : Triple) : DB × Option Err :=
  match db.insertTx tr with
  | .ok db2 => (db2, none)
  | .error e => (db, some e)

/-- The body of the Delete transaction (db.go lines 183-204). -/
def DB.deleteTx (db : DB) (tr : Triple) : Except Err DB :=
  match db.getID (.uri tr.subj) with
  | .error e => .error e
  | .ok sID =>
    match db.getID (.uri tr.pred) with
    | .error e => .error e
    | .ok pID =>
      match db.getID tr.obj with
      | .error e => .error e
      | .ok oID => db.removeTriple sID pID oID

/-- DB.Delete: bolt Update with rollback on error. -/
def DB.Delete (db : DB) (tr : Triple) : DB × Option Err :=
  match db.deleteTx tr with
  | .ok db2 => (db2, none)
  | .error e => (db, some e)

/-- DB.Has (db.go lines 207-250): a read-only snapshot; ErrNotFound on any
of the three id lookups answers (false, nil); an absent SPO key answers
(false, nil); otherwise membership of the object id in the bitmap. -/
def DB.Has (db : DB) (tr : Triple) : Bool × Option Err :=
  match db.getID (.uri tr.subj) with
  | .error .notFound => (false, none)
  | .error e => (false, some e)
  | .ok sID =>
    match db.getID (.uri tr.pred) with
    | .error .notFound => (false, none)
    | .error e => (false, some e)
    | .ok pID =>
      match db.getID tr.obj with
      | .error .notFound => (false, none)
      | .error e => (false, some e)
      | .ok oID =>
        match kvGet db.spo (sID, pID) with
        | none => (false, none)
        | some bm => (bm.contains oID, none)

/-- The statistics of DB.Stats (db.go lines 82-99) that the spec claims
range over: NumTerms is the key count of the terms bucket. -/
structure Stats where
  NumTerms : Nat
deriving DecidableEq, Repr

/-- DB.Stats, restricted to the term count. -/
def DB.Stats (db : DB) : Stats := ⟨db.terms.length⟩

def wBase : Bytes := strBytes "http://t/"

def wTrA : Triple :=
  ⟨strBytes "http://t/s", strBytes "http://t/p", .lit (strBytes "a") [] XSDstring⟩

def wTrB : Triple :=
  ⟨strBytes "http://t/s", strBytes "http://t/p", .lit (strBytes "b") [] XSDstring⟩

def wDB1 : DB := ((DB.empty wBase).Insert wTrA).1



/-- Sortedness of a bucket: keys strictly ascending in the bucket key order
(bolt stores keys in byte order). -/
def kvSorted {κ α : Type} (lt : κ → κ → Bool) (m : List (κ × α)) : Prop :=
  List.Pairwise (fun a b => lt a.1 b.1 = true) m

/-- A stored bitmap is canonical: strictly ascending members. -/
def bmSorted (m : List Nat) : Prop := List.Pairwise (fun a b => a < b) m

/-- Membership of one triple component in one index bucket: the bitmap at
the compound key a followed by b contains c. -/
def idxHas (m : List ((Nat × Nat) × List Nat)) (a b c : Nat) : Bool :=
  match kvGet m (a, b) with
  | none => false
  | some bm => bm.contains c

/-- Some key of the bucket starts with the given id: exactly what the
notInIndex seek looks for. -/
def hasKey1 (m : List ((Nat × Nat) × List Nat)) (id : Nat) : Prop :=
  ∃ e ∈ m, e.1.1 = id

instance {κ α : Type} [DecidableEq κ] (lt : κ → κ → Bool) (m : List (κ × α)) :
    Decidable (kvSorted lt m) := by
  unfold kvSorted; infer_instance

instance (m : List Nat) : Decidable (bmSorted m) := by
  unfold bmSorted; infer_instance

instance (m : List ((Nat × Nat) × List Nat)) (id : Nat) : Decidable (hasKey1 m id) := by
  unfold hasKey1; infer_instance

/-- The dictionary half of the state invariant: both buckets sorted, the two
directions mutually inverse, ids between 1 and the sequence counter, and the
counter within the term limit. -/
def DictInv (db : DB) : Prop :=
  kvSorted natLt db.terms ∧ kvSorted bytesLt db.iterms ∧
  (∀ e ∈ db.terms, kvGet db.iterms e.2 = some e.1) ∧
  (∀ e ∈ db.iterms, kvGet db.terms e.2 = some e.1) ∧
  (∀ e ∈ db.terms, 1 ≤ e.1 ∧ e.1 ≤ db.seq) ∧
  db.seq ≤ MaxTerms

instance (db : DB) : Decidable (DictInv db) := by
  unfold DictInv; infer_instance

/-- The state invariant of a committed database: the buckets sorted by key;
no empty or unsorted bitmap; the three indices agreeing on the stored
triples; the dictionary invariant; no orphaned dictionary entry; every id
referenced by the SPO index present in the dictionary. -/
@[mk_iff]
structure InvS (db : DB) : Prop where
  spoSorted : kvSorted pairLt db.spo
  ospSorted : kvSorted pairLt db.osp
  posSorted : kvSorted pairLt db.pos
  spoBm : ∀ e ∈ db.spo, bmSorted e.2 ∧ e.2 ≠ []
  ospBm : ∀ e ∈ db.osp, bmSorted e.2 ∧ e.2 ≠ []
  posBm : ∀ e ∈ db.pos, bmSorted e.2 ∧ e.2 ≠ []
  agreeSpo : ∀ e ∈ db.spo, ∀ c ∈ e.2,
    idxHas db.osp c e.1.1 e.1.2 = true ∧ idxHas db.pos e.1.2 c e.1.1 = true
  agreeOsp : ∀ e ∈ db.osp, ∀ c ∈ e.2, idxHas db.spo e.1.2 c e.1.1 = true
  agreePos : ∀ e ∈ db.pos, ∀ c ∈ e.2, idxHas db.spo c e.1.1 e.1.2 = true
  dict : DictInv db
  orphanFree : ∀ e ∈ db.terms, hasKey1 db.spo e.1 ∨ hasKey1 db.osp e.1 ∨ hasKey1 db.pos e.1
  spoRefs : ∀ e ∈ db.spo, (kvGet db.terms e.1.1).isSome = true ∧
    (kvGet db.terms e.1.2).isSome = true ∧ ∀ c ∈ e.2, (kvGet db.terms c).isSome = true

instance (db : DB) : Decidable (InvS db) := decidable_of_iff _ (invS_iff db).symm

/-- The database states reachable from a freshly opened (empty) database by
committed Insert and Delete operations. -/
inductive Reach : DB → Prop where
  | init (base : Bytes) : Reach (DB.empty base)
  | insert {db : DB} (tr : Triple) : Reach db → Reach (db.Insert tr).1
  | del {db : DB} (tr : Triple) : Reach db → Reach (db.Delete tr).1

/-- The triples stored in the SPO index, viewed at the byte level: an entry
of the SPO bucket resolved through the terms bucket to the encodings of the
three component terms. -/
def storedBytes (db : DB) (bs bp bo : Bytes) : Prop :=
  ∃ s p o : Nat, idxHas db.spo s p o = true ∧ kvGet db.terms s = some bs ∧
    kvGet db.terms p = some bp ∧ kvGet db.terms o = some bo

/-- A sequence of Insert operations applied to a database state. -/
def foldInsert (db : DB) (ts : List Triple) : DB :=
  ts.foldl (fun d tr => (d.Insert tr).1) db

/-- A sequence of Delete operations applied to a database state. -/
def foldDelete (db : DB) (ts : List Triple) : DB :=
  ts.foldl (fun d tr => (d.Delete tr).1) db

/-- rdf.Graph.Insert restricted to one triple: a graph holds each triple
once, so inserting an already-present triple is a no-op. -/
def gInsert (g : List Triple) (tr : Triple) : List Triple :=
  if tr ∈ g then g else g ++ [tr]

/-- DB.ImportGraph (db.go lines 390-424): one bolt Update adding every
triple of the graph through addTerm and storeTriple, stopping at the first
error (which rolls the whole batch back). -/
def importGraph : DB → List Triple → Except Err DB
  | db, [] => .ok db
  | db, tr :: rest =>
    match db.insertTx tr with
    | .error e => .error e
    | .ok db2 => importGraph db2 rest

/-- The decoder loop of DB.Import (db.go lines 359-389) over the stream's
decode events: `none` is a decode error (skipped), `some tr` a parsed
triple. The batch graph `g` and counter `i` grow together; when `i` reaches
the batch size the graph is committed and `c += i`; after EOF a non-empty
remainder graph is committed and `c += i` as well. An ImportGraph error
returns the running total with the batch rolled back. -/
def importLoop (batchSize : Nat) : List (Option Triple) → DB → List Triple →
    Nat → Nat → DB × Nat × Option Err
  | [], db, g, c, i =>
    if g.length > 0 then
      match importGraph db g with
      | .error e => (db, c, some e)
      | .ok db2 => (db2, c + i, none)
    else (db, c, none)
  | ev :: rest, db, g, c, i =>
    match ev with
    | none => importLoop batchSize rest db g c i
    | some tr =>
      if i + 1 = batchSize then
        match importGraph db (gInsert g tr) with
        | .error e => (db, c, some e)
        | .ok db2 => importLoop batchSize rest db2 [] (c + (i + 1)) 0
      else importLoop batchSize rest db (gInsert g tr) c (i + 1)

/-- DB.Import: run the decode loop from an empty batch. -/
def DB.Import (db : DB) (batchSize : Nat) (evs : List (Option Triple)) :
    DB × Nat × Option Err :=
  importLoop batchSize evs db [] 0 0

/-- strings.TrimPrefix at the byte level. -/
def trimPre (pre s : Bytes) : Bytes :=
  if pre.isPrefixOf s then s.drop pre.length else s

/-- A hexadecimal digit character, as used by strconv escape sequences. -/
def hexDigit (n : Nat) : Nat := if n < 10 then 48 + n else 87 + n

/-- One byte of Go %q quoting (strconv.Quote): quote and backslash escaped,
printable ASCII verbatim, the C escapes for 7-13, and a hex escape for the
rest. -/
def quoteByte (b : Nat) : Bytes :=
  if b = 34 then [92, 34]
  else if b = 92 then [92, 92]
  else if 32 ≤ b ∧ b ≤ 126 then [b]
  else if b = 7 then [92, 97]
  else if b = 8 then [92, 98]
  else if b = 9 then [92, 116]
  else if b = 10 then [92, 110]
  else if b = 11 then [92, 118]
  else if b = 12 then [92, 102]
  else if b = 13 then [92, 114]
  else [92, 120, hexDigit (b / 16), hexDigit (b % 16)]

/-- Go %q of a byte string: double quotes around the escaped bytes. -/
def goQuote (s : Bytes) : Bytes :=
  [34] ++ s.foldr (fun b acc => quoteByte b ++ acc) [] ++ [34]

/-- rdf.Term.String(): the URI text, or the literal's plain value. -/
def termString : Term → Bytes
  | .uri u => u
  | .lit v _ _ => v

/-- The object serialization of DB.Dump (db.go lines 487-503): a URI in
angle brackets with the base stripped; a literal %q-quoted, with an @lang
suffix for rdf:langString, bare for xsd:string, and a ^^<datatype> suffix
(base stripped) otherwise. -/
def renderObj (base : Bytes) : Term → Bytes
  | .uri u => strBytes "<" ++ trimPre base u ++ strBytes ">"
  | .lit v lang dt =>
    if dt = RDFlangString then goQuote v ++ strBytes "@" ++ lang
    else if dt = XSDstring then goQuote v
    else goQuote v ++ strBytes "^^<" ++ trimPre base dt ++ strBytes ">"

/-- The bitmap loop of DB.Dump (db.go lines 474-505): resolve each object
id, separating successive objects of one subject-predicate pair with a
comma; a getTerm failure aborts with the bytes written so far. -/
def renderObjs (db : DB) : List Nat → Nat → Bytes → Bytes × Option Err
  | [], _, acc => (acc, none)
  | oid :: rest, c, acc =>
    match db.getTerm oid with
    | .error e => (acc, some e)
    | .ok t =>
      renderObjs db rest (c + 1)
        (acc ++ (if c > 0 then strBytes ", " else []) ++ renderObj db.base t)

/-- The SPO ForEach of DB.Dump (db.go lines 439-509): a new subject id first
terminates the previous statement with a period before the subject is
printed (curSubj starts at 0, matching no real id, so this also closes the
@base directive line); a repeated subject id continues with a semicolon;
rdf:type prints as the keyword a; after the last entry the final statement
is closed with a period. -/
def dumpLoop (db : DB) : List ((Nat × Nat) × List Nat) → Nat → Bytes →
    Bytes × Option Err
  | [], _, acc => (acc ++ strBytes " .\n", none)
  | ((sID, pID), bm) :: rest, curSubj, acc =>
    let step : Except (Bytes × Err) Bytes :=
      if sID ≠ curSubj then
        match db.getTerm sID with
        | .error e => .error (acc ++ strBytes " .\n", e)
        | .ok subj =>
          .ok (acc ++ strBytes " .\n" ++ strBytes "<" ++
            trimPre db.base (termString subj) ++ strBytes "> ")
      else .ok (acc ++ strBytes " ;\n\t")
    match step with
    | .error (acc2, e) => (acc2, some e)
    | .ok acc2 =>
      match db.getTerm pID with
      | .error e => (acc2, some e)
      | .ok pred =>
        let acc3 := acc2 ++
          (if pred = .uri RDFtype then strBytes "a "
           else strBytes "<" ++ trimPre db.base (termString pred) ++ strBytes "> ")
        match renderObjs db bm 0 acc3 with
        | (acc4, some e) => (acc4, some e)
        | (acc4, none) => dumpLoop db rest sID acc4

/-- DB.Dump (db.go lines 425-515): the @base directive (no newline of its
own), then the SPO walk. -/
def DB.Dump (db : DB) : Bytes × Option Err :=
  dumpLoop db db.spo 0 (strBytes "@base <" ++ db.base ++ strBytes ">")

/-- The single-triple database of the Dump example: base http://ex/ holding
exactly (http://ex/a, http://ex/p, "x"@en). -/
def wDB9 : DB :=
  ((DB.empty (strBytes "http://ex/")).Insert
    ⟨strBytes "http://ex/a", strBytes "http://ex/p",
      .lit (strBytes "x") (strBytes "en") RDFlangString⟩).1

/-- The id holds the encoding of a term, and that term is a URI: the
well-formedness of the subject and predicate slots that Describe's
rdf.URI type assertions rely on. -/
def isUriId (db : DB) (x : Nat) : Bool :=
  match kvGet db.terms x with
  | none => false
  | some bt =>
    match decode db.base bt with
    | .ok (.uri _) => true
    | _ => false

/-- The bitmap loop of Describe's SPO branch (db.go lines 288-301): resolve
and decode each object id (a missing terms entry is the "bug: term ID in
index, but not stored" error) and insert (node, pred, obj) into the graph;
the pred.(rdf.URI) type assertion panics on a non-URI predicate. -/
def spoObjLoop (db : DB) (node : Bytes) (pred : Term) :
    List Nat → List Triple → List Triple × Option Err
  | [], g => (g, none)
  | o :: rest, g =>
    match kvGet db.terms o with
    | none => (g, some .bug)
    | some bto =>
      match decode db.base bto with
      | .error e => (g, some e)
      | .ok obj =>
        match pred with
        | .uri pu => spoObjLoop db node pred rest (gInsert g ⟨node, pu, obj⟩)
        | .lit _ _ _ => (g, some .panicked)

/-- The SPO cursor walk of Describe (db.go lines 269-305), already
positioned by the seek: keys whose first four bytes equal the node id are
collected, a larger prefix breaks the loop, a smaller one (the id-1 landing
point) is skipped. -/
def spoScan (db : DB) (node : Bytes) (sid : Nat) :
    List ((Nat × Nat) × List Nat) → List Triple → List Triple × Option Err
  | [], g => (g, none)
  | ((a, b), bm) :: rest, g =>
    if a = sid then
      match kvGet db.terms b with
      | none => (g, some .bug)
      | some btp =>
        match decode db.base btp with
        | .error e => (g, some e)
        | .ok pred =>
          match spoObjLoop db node pred bm g with
          | (g2, some e) => (g2, some e)
          | (g2, none) => spoScan db node sid rest g2
    else if sid < a then (g, none)
    else spoScan db node sid rest g

/-- The bitmap loop of Describe's OSP branch (db.go lines 330-345): resolve
and decode each predicate id and insert (subj, pred, node); the subj and
pred rdf.URI type assertions panic on non-URI terms. -/
def ospPredLoop (db : DB) (node : Bytes) (subj : Term) :
    List Nat → List Triple → List Triple × Option Err
  | [], g => (g, none)
  | p :: rest, g =>
    match kvGet db.terms p with
    | none => (g, some .bug)
    | some btp =>
      match decode db.base btp with
      | .error e => (g, some e)
      | .ok pred =>
        match subj, pred with
        | .uri su, .uri pu =>
          ospPredLoop db node subj rest (gInsert g ⟨su, pu, .uri node⟩)
        | _, _ => (g, some .panicked)

/-- The OSP cursor walk of Describe (db.go lines 314-348): keys whose first
four bytes equal the node id contribute their subject (the key's second
half) and their bitmap of predicate ids. -/
def ospScan (db : DB) (node : Bytes) (sid : Nat) :
    List ((Nat × Nat) × List Nat) → List Triple → List Triple × Option Err
  | [], g => (g, none)
  | ((a, b), bm) :: rest, g =>
    if a = sid then
      match kvGet db.terms b with
      | none => (g, some .bug)
      | some bts =>
        match decode db.base bts with
        | .error e => (g, some e)
        | .ok subj =>
          match ospPredLoop db node subj bm g with
          | (g2, some e) => (g2, some e)
          | (g2, none) => ospScan db node sid rest g2
    else if sid < a then (g, none)
    else ospScan db node sid rest g

/-- DB.Describe (db.go lines 255-354): an unknown node answers the empty
graph with no error; otherwise the SPO index is scanned from the seek
position id-1 (uint32 arithmetic) for the triples with the node as subject
and, when asObject is set, the OSP index likewise for the triples with the
node as object. -/
def DB.Describe (db : DB) (node : Bytes) (asObject : Bool) :
    List Triple × Option Err :=
  match kvGet db.iterms (encode db.base (.uri node)) with
  | none => ([], none)
  | some sid =>
    match spoScan db node sid
        (db.spo.dropWhile (fun e => decide (e.1.1 < (sid + 4294967295) % 4294967296)))
        [] with
    | (g, some e) => (g, some e)
    | (g, none) =>
      if asObject then
        ospScan db node sid
          (db.osp.dropWhile (fun e => decide (e.1.1 < (sid + 4294967295) % 4294967296)))
          g
      else (g, none)

/-- A triple of the database's logical triple set: three ids related by the
SPO index whose terms decode to the triple's components. -/
def inTripleSet (db : DB) (tr : Triple) : Prop :=
  ∃ s p o : Nat, idxHas db.spo s p o = true ∧
    db.getTerm s = .ok (.uri tr.subj) ∧ db.getTerm p = .ok (.uri tr.pred) ∧
    db.getTerm o = .ok tr.obj

/-- The two-triple database of the Describe example: wTrA and a second
triple pointing at wTrA's subject as object. -/
def wDB6 : DB :=
  (wDB1.Insert ⟨strBytes "http://t/q", strBytes "http://t/r",
    .uri (strBytes "http://t/s")⟩).1

def wNode6 : Bytes := strBytes "http://t/s"

/-- C4 (amended): decoding the encoding of a term returns the term, for every
base URI and every codec-safe term: the language tag (resp. a custom datatype
URI) fits the one-byte length field, a custom datatype URI is invariant under
NewURI character stripping, and the language is empty unless the datatype is
rdf:langString. -/
theorem C4_encode_decode_roundtrip (base : Bytes) (t : Term) (h : codecSafe t) :
    decode base (encode base t) = .ok t := by
  cases t with
  | uri u =>
    by_cases hp : base.isPrefixOf u
    · have hpre : base <+: u := List.isPrefixOf_iff_prefix.mp hp
      simp only [encode, if_pos hp, decode]
      norm_num
      exact List.prefix_iff_eq_append.mp hpre
    · simp only [encode, if_neg hp, decode]
      norm_num
  | lit v lang dt =>
    obtain ⟨h1, h2, h3⟩ := h
    by_cases n1 : dt = XSDstring
    · subst n1; have := h2 (by decide); subst this; rfl
    by_cases n2 : dt = RDFlangString
    · subst n2
      have hlen := h1 rfl
      have hne : RDFlangString ≠ XSDstring := by decide
      simp only [encode, if_neg hne, if_pos rfl]
      have hm : lang.length % 256 = lang.length := Nat.mod_eq_of_lt (by omega)
      simp only [decode, hm]
      norm_num
    by_cases n3 : dt = XSDboolean
    · subst n3; have := h2 n2; subst this; rfl
    by_cases n4 : dt = XSDbyte
    · subst n4; have := h2 n2; subst this; rfl
    by_cases n5 : dt = XSDint
    · subst n5; have := h2 n2; subst this; rfl
    by_cases n6 : dt = XSDshort
    · subst n6; have := h2 n2; subst this; rfl
    by_cases n7 : dt = XSDlong
    · subst n7; have := h2 n2; subst this; rfl
    by_cases n8 : dt = XSDinteger
    · subst n8; have := h2 n2; subst this; rfl
    by_cases n9 : dt = XSDunsignedShort
    · subst n9; have := h2 n2; subst this; rfl
    by_cases n10 : dt = XSDunsignedInt
    · subst n10; have := h2 n2; subst this; rfl
    by_cases n11 : dt = XSDunsignedLong
    · subst n11; have := h2 n2; subst this; rfl
    by_cases n12 : dt = XSDunsignedByte
    · subst n12; have := h2 n2; subst this; rfl
    by_cases n13 : dt = XSDfloat
    · subst n13; have := h2 n2; subst this; rfl
    by_cases n14 : dt = XSDdouble
    · subst n14; have := h2 n2; subst this; rfl
    by_cases n15 : dt = XSDdateTimeStamp
    · subst n15; have := h2 n2; subst this; rfl
    have hl0 : lang = [] := h2 n2
    subst hl0
    have hnr : dt ∉ recognizedDatatypes := by
      simp only [recognizedDatatypes, List.mem_cons, List.not_mem_nil, or_false, not_or]
      exact ⟨n1, n2, n3, n4, n5, n6, n7, n8, n9, n10, n11, n12, n13, n14, n15⟩
    obtain ⟨hlen, hid⟩ := h3 hnr
    simp only [encode, if_neg n1, if_neg n2, if_neg n3, if_neg n4, if_neg n5, if_neg n6,
      if_neg n7, if_neg n8, if_neg n9, if_neg n10, if_neg n11, if_neg n12, if_neg n13,
      if_neg n14, if_neg n15]
    have hm : dt.length % 256 = dt.length := Nat.mod_eq_of_lt (by omega)
    simp only [decode, hm]
    norm_num [hid]
    intro hx
    omega

/-- Witness for C4: a concrete language-tagged literal round-trips. -/
theorem C4_encode_decode_roundtrip_witness :
    codecSafe (.lit (strBytes "x") (strBytes "en") RDFlangString) ∧
      decode (strBytes "http://ex/")
          (encode (strBytes "http://ex/") (.lit (strBytes "x") (strBytes "en") RDFlangString)) =
        .ok (.lit (strBytes "x") (strBytes "en") RDFlangString) :=
  ⟨by decide, C4_encode_decode_roundtrip _ _ (by decide)⟩

set_option maxRecDepth 10000 in
/-- C4 counterexample: for a language-tagged literal whose tag is 256 bytes
long, the length byte `uint8(ll)` wraps to 0, so the decoding is a different
term: the round-trip claim is false as stated for arbitrary terms. -/
theorem C4_roundtrip_counterexample :
    decode [] (encode [] (.lit [120] (List.replicate 256 97) RDFlangString)) ≠
      Except.ok (.lit [120] (List.replicate 256 97) RDFlangString) := by decide

/-- C7: on the buffer 0xFF 0x01 the declared datatype-URI length (1) exceeds
the remaining buffer (0 bytes), so by the claim decode should return an
InvalidEncoding error; the code only guards `len(b) < ll` and then evaluates
the out-of-range slice `b[ll+2:]`, a runtime panic. -/
theorem C7_decode_panic_on_truncated_custom_datatype :
    decode [] [0xFF, 0x01] = .error .panicked := by decide

theorem kvGet_kvPut_self {κ α : Type} [DecidableEq κ] (lt : κ → κ → Bool)
    (m : List (κ × α)) (q : κ) (v : α) : kvGet (kvPut lt m q v) q = some v := by
  induction m with
  | nil => simp [kvPut, kvGet]
  | cons e rest ih =>
    obtain ⟨k, w⟩ := e
    by_cases h1 : lt q k
    · simp [kvPut, h1, kvGet]
    · by_cases h2 : q = k
      · subst h2; simp [kvPut, h1, kvGet]
      · simp [kvPut, h1, h2, kvGet, ih]

theorem kvGet_kvPut_ne {κ α : Type} [DecidableEq κ] (lt : κ → κ → Bool)
    (m : List (κ × α)) (q q2 : κ) (v : α) (h : q2 ≠ q) :
    kvGet (kvPut lt m q v) q2 = kvGet m q2 := by
  induction m with
  | nil => simp [kvPut, kvGet, h]
  | cons e rest ih =>
    obtain ⟨k, w⟩ := e
    by_cases h1 : lt q k
    · simp [kvPut, h1, kvGet, h]
    · by_cases h2 : q = k
      · subst h2; simp [kvPut, h1, kvGet, h]
      · by_cases h3 : q2 = k
        · simp [kvPut, h1, h2, kvGet, h3]
        · simp [kvPut, h1, h2, kvGet, h3, ih]

theorem kvGet_kvDel_self {κ α : Type} [DecidableEq κ]
    (m : List (κ × α)) (q : κ) : kvGet (kvDel m q) q = none := by
  induction m with
  | nil => simp [kvDel, kvGet]
  | cons e rest ih =>
    obtain ⟨k, w⟩ := e
    by_cases h1 : q = k
    · subst h1; simp [kvDel, ih]
    · simp [kvDel, h1, kvGet, ih]

theorem kvGet_kvDel_ne {κ α : Type} [DecidableEq κ]
    (m : List (κ × α)) (q q2 : κ) (h : q2 ≠ q) :
    kvGet (kvDel m q) q2 = kvGet m q2 := by
  induction m with
  | nil => simp [kvDel]
  | cons e rest ih =>
    obtain ⟨k, w⟩ := e
    by_cases h1 : q = k
    · subst h1; simp [kvDel, kvGet, h, ih]
    · by_cases h3 : q2 = k
      · simp [kvDel, h1, kvGet, h3]
      · simp [kvDel, h1, kvGet, h3, ih]

theorem mem_bmAdd (m : List Nat) (x y : Nat) : y ∈ bmAdd m x ↔ (y ∈ m ∨ y = x) := by
  induction m with
  | nil => simp [bmAdd]
  | cons z zs ih =>
    by_cases h1 : x < z
    · simp [bmAdd, h1]
      tauto
    · by_cases h2 : x = z
      · subst h2
        simp [bmAdd, h1]
        tauto
      · simp [bmAdd, h1, h2, ih]
        tauto


theorem addTerm_ok {db : DB} {t : Term} {id : Nat} {db2 : DB}
    (h : db.addTerm t = .ok (id, db2)) :
    db2.base = db.base ∧ db2.spo = db.spo ∧ db2.osp = db.osp ∧ db2.pos = db.pos ∧
    kvGet db2.iterms (encode db.base t) = some id ∧
    ∀ bt j, kvGet db.iterms bt = some j → kvGet db2.iterms bt = some j := by
  unfold DB.addTerm at h
  cases hg : kvGet db.iterms (encode db.base t) with
  | some i =>
    simp [hg] at h
    obtain ⟨h1, h2⟩ := h
    subst h1; subst h2
    exact ⟨rfl, rfl, rfl, rfl, hg, fun bt j hj => hj⟩
  | none =>
    simp only [hg] at h
    by_cases hf : db.seq + 1 > MaxTerms
    · simp [hf] at h
    · simp only [hf, ite_false, reduceIte] at h
      simp at h
      obtain ⟨h1, h2⟩ := h
      subst h1
      subst h2
      refine ⟨rfl, rfl, rfl, rfl, kvGet_kvPut_self .., ?_⟩
      intro bt j hj
      by_cases hb : bt = encode db.base t
      · subst hb; rw [hg] at hj; cases hj
      · rw [kvGet_kvPut_ne bytesLt db.iterms (encode db.base t) bt (db.seq + 1) hb]
        exact hj

theorem idxAdd_false {m m2 : List ((Nat × Nat) × List Nat)} {k1 k2 v : Nat}
    (h : idxAdd m k1 k2 v = (false, m2)) :
    m2 = m ∧ ∃ bm, kvGet m (k1, k2) = some bm ∧ v ∈ bm := by
  unfold idxAdd at h
  cases hg : kvGet m (k1, k2) with
  | none => simp [hg] at h
  | some bm =>
    simp only [hg, Option.getD_some] at h
    by_cases hc : v ∈ bm
    · simp [hc] at h
      exact ⟨h.symm, bm, rfl, hc⟩
    · simp [hc] at h

theorem idxAdd_true {m m2 : List ((Nat × Nat) × List Nat)} {k1 k2 v : Nat}
    (h : idxAdd m k1 k2 v = (true, m2)) :
    m2 = kvPut pairLt m (k1, k2) (bmAdd ((kvGet m (k1, k2)).getD []) v) ∧
      v ∉ (kvGet m (k1, k2)).getD [] := by
  unfold idxAdd at h
  by_cases hc : v ∈ (kvGet m (k1, k2)).getD []
  · simp [hc] at h
  · simp [hc] at h
    exact ⟨h.symm, hc⟩

theorem storeTriple_ok {db : DB} {s p o : Nat} {db2 : DB}
    (h : db.storeTriple s p o = .ok db2) :
    db2.base = db.base ∧ db2.terms = db.terms ∧ db2.iterms = db.iterms ∧ db2.seq = db.seq ∧
    ∃ bm, kvGet db2.spo (s, p) = some bm ∧ o ∈ bm := by
  unfold DB.storeTriple at h
  cases ha : idxAdd db.spo s p o with
  | mk b1 m1 =>
    rw [ha] at h
    cases b1 with
    | false =>
      simp at h
      obtain ⟨hm, bm, hbm, hv⟩ := idxAdd_false ha
      subst h
      exact ⟨rfl, rfl, rfl, rfl, bm, hm ▸ hbm, hv⟩
    | true =>
      obtain ⟨hm1, _⟩ := idxAdd_true ha
      have hspo : ∃ bm, kvGet m1 (s, p) = some bm ∧ o ∈ bm := by
        refine ⟨_, hm1 ▸ kvGet_kvPut_self pairLt db.spo (s, p) _, ?_⟩
        exact (mem_bmAdd _ _ _).mpr (Or.inr rfl)
      cases hb : idxAdd db.osp o s p with
      | mk b2 m2 =>
        simp only [hb] at h
        cases b2 with
        | false =>
          simp at h
          subst h
          exact ⟨rfl, rfl, rfl, rfl, hspo⟩
        | true =>
          cases hc : idxAdd db.pos p o s with
          | mk b3 m3 =>
            simp only [hc] at h
            cases b3 with
            | false =>
              simp at h
              subst h
              exact ⟨rfl, rfl, rfl, rfl, hspo⟩
            | true =>
              simp at h
              subst h
              exact ⟨rfl, rfl, rfl, rfl, hspo⟩

theorem storeTriple_noop {db : DB} {s p o : Nat} {bm : List Nat}
    (h1 : kvGet db.spo (s, p) = some bm) (h2 : o ∈ bm) :
    db.storeTriple s p o = .ok db := by
  unfold DB.storeTriple idxAdd
  simp [h1, h2]

theorem insertTx_ok_facts {db : DB} {tr : Triple} {dbf : DB}
    (hi : db.insertTx tr = .ok dbf) :
    dbf.base = db.base ∧
    ∃ sID pID oID bm,
      kvGet dbf.iterms (encode db.base (.uri tr.subj)) = some sID ∧
      kvGet dbf.iterms (encode db.base (.uri tr.pred)) = some pID ∧
      kvGet dbf.iterms (encode db.base tr.obj) = some oID ∧
      kvGet dbf.spo (sID, pID) = some bm ∧ oID ∈ bm := by
  unfold DB.insertTx at hi
  cases ha : db.addTerm (.uri tr.subj) with
  | error e => simp [ha] at hi
  | ok r1 =>
    obtain ⟨sID, db1⟩ := r1
    simp only [ha] at hi
    cases hb : db1.addTerm (.uri tr.pred) with
    | error e => simp [hb] at hi
    | ok r2 =>
      obtain ⟨pID, db2⟩ := r2
      simp only [hb] at hi
      cases hc : db2.addTerm tr.obj with
      | error e => simp [hc] at hi
      | ok r3 =>
        obtain ⟨oID, db3⟩ := r3
        simp only [hc] at hi
        obtain ⟨hb1, _, _, _, hi1, hm1⟩ := addTerm_ok ha
        obtain ⟨hb2, _, _, _, hi2, hm2⟩ := addTerm_ok hb
        obtain ⟨hb3, _, _, _, hi3, hm3⟩ := addTerm_ok hc
        obtain ⟨hb4, _, hit4, _, bm, hbm, hobm⟩ := storeTriple_ok hi
        refine ⟨by rw [hb4, hb3, hb2, hb1], sID, pID, oID, bm, ?_, ?_, ?_, hbm, hobm⟩
        · rw [hit4]
          exact hm3 _ _ (hm2 _ _ hi1)
        · rw [hit4]
          rw [hb1] at hi2
          exact hm3 _ _ hi2
        · rw [hit4]
          rw [hb2, hb1] at hi3
          exact hi3

/-- C1: after a successful Insert of a triple, Has on the same triple
answers (true, nil): the three encoded terms resolve to ids in iterms and
the SPO bitmap at the subject-predicate key contains the object id. -/
theorem C1_insert_then_has (db : DB) (tr : Triple) (h : (db.Insert tr).2 = none) :
    (db.Insert tr).1.Has tr = (true, none) := by
  cases hi : db.insertTx tr with
  | error e =>
    have hins : db.Insert tr = (db, some e) := by unfold DB.Insert; rw [hi]
    rw [hins] at h; simp at h
  | ok dbf =>
    have hins : db.Insert tr = (dbf, none) := by unfold DB.Insert; rw [hi]
    rw [hins]
    obtain ⟨hbase, sID, pID, oID, bm, hS, hP, hO, hbm, hobm⟩ := insertTx_ok_facts hi
    simp only [DB.Has, DB.getID, DB.getIDb, hbase, hS, hP, hO, hbm]
    simp [hobm]

/-- Witness for C1 at a concrete database and triple. -/
theorem C1_insert_then_has_witness :
    ((DB.empty (strBytes "http://test.org/")).Insert
        ⟨strBytes "http://test.org/s", strBytes "http://test.org/p",
          .lit (strBytes "hello") [] XSDstring⟩).2 = none ∧
      (((DB.empty (strBytes "http://test.org/")).Insert
          ⟨strBytes "http://test.org/s", strBytes "http://test.org/p",
            .lit (strBytes "hello") [] XSDstring⟩).1.Has
        ⟨strBytes "http://test.org/s", strBytes "http://test.org/p",
          .lit (strBytes "hello") [] XSDstring⟩) = (true, none) :=
  ⟨by decide, C1_insert_then_has _ _ (by decide)⟩

/-- C5: Insert is idempotent: a second Insert of the same triple finds all
three term ids present, CheckedAdd on the SPO index reports already-present,
the remaining index writes are skipped, and the returned state is the very
same KV state. -/
theorem C5_insert_idempotent (db : DB) (tr : Triple) (h : (db.Insert tr).2 = none) :
    (db.Insert tr).1.Insert tr = ((db.Insert tr).1, none) := by
  cases hi : db.insertTx tr with
  | error e =>
    have hins : db.Insert tr = (db, some e) := by unfold DB.Insert; rw [hi]
    rw [hins] at h; simp at h
  | ok dbf =>
    have hins : db.Insert tr = (dbf, none) := by unfold DB.Insert; rw [hi]
    rw [hins]
    obtain ⟨hbase, sID, pID, oID, bm, hS, hP, hO, hbm, hobm⟩ := insertTx_ok_facts hi
    have ha2 : dbf.addTerm (.uri tr.subj) = .ok (sID, dbf) := by
      unfold DB.addTerm
      simp only [hbase, hS]
    have hp2 : dbf.addTerm (.uri tr.pred) = .ok (pID, dbf) := by
      unfold DB.addTerm
      simp only [hbase, hP]
    have ho2 : dbf.addTerm tr.obj = .ok (oID, dbf) := by
      unfold DB.addTerm
      simp only [hbase, hO]
    have hitx : dbf.insertTx tr = .ok dbf := by
      unfold DB.insertTx
      simp only [ha2, hp2, ho2, storeTriple_noop hbm hobm]
    unfold DB.Insert
    rw [hitx]

/-- Witness for C5 at a concrete database and triple. -/
theorem C5_insert_idempotent_witness :
    ((DB.empty (strBytes "http://test.org/")).Insert
        ⟨strBytes "http://test.org/a", strBytes "http://test.org/p",
          .uri (strBytes "http://test.org/b")⟩).2 = none ∧
      (((DB.empty (strBytes "http://test.org/")).Insert
          ⟨strBytes "http://test.org/a", strBytes "http://test.org/p",
            .uri (strBytes "http://test.org/b")⟩).1.Insert
        ⟨strBytes "http://test.org/a", strBytes "http://test.org/p",
          .uri (strBytes "http://test.org/b")⟩) =
      (((DB.empty (strBytes "http://test.org/")).Insert
          ⟨strBytes "http://test.org/a", strBytes "http://test.org/p",
            .uri (strBytes "http://test.org/b")⟩).1, none) :=
  ⟨by decide, C5_insert_idempotent _ _ (by decide)⟩

theorem getID_error {db : DB} {t : Term} {e : Err} (h : db.getID t = .error e) :
    e = .notFound := by
  unfold DB.getID DB.getIDb at h
  cases hg : kvGet db.iterms (encode db.base t) with
  | none => simp [hg] at h; exact h.symm
  | some i => simp [hg] at h

/-- C2: deleting a triple that is not stored — a component term unknown, or
all ids resolvable but the SPO bitmap excluding the object — returns
ErrNotFound and returns the database state unchanged (the Update transaction
is rolled back, so no bucket is modified). -/
theorem C2_delete_unstored (db : DB) (tr : Triple) (h : (db.Has tr).1 = false) :
    db.Delete tr = (db, some .notFound) := by
  unfold DB.Has at h
  unfold DB.Delete DB.deleteTx
  cases hS : db.getID (.uri tr.subj) with
  | error e =>
    have he := getID_error hS
    subst he
    simp [hS]
  | ok sID =>
    simp only [hS] at h ⊢
    cases hP : db.getID (.uri tr.pred) with
    | error e =>
      have he := getID_error hP
      subst he
      simp [hP]
    | ok pID =>
      simp only [hP] at h ⊢
      cases hO : db.getID tr.obj with
      | error e =>
        have he := getID_error hO
        subst he
        simp [hO]
      | ok oID =>
        simp only [hO] at h ⊢
        unfold DB.removeTriple idxRemove
        cases hg : kvGet db.spo (sID, pID) with
        | none => simp [hg]
        | some bm =>
          simp only [hg] at h ⊢
          by_cases hm : oID ∈ bm
          · simp [hm] at h
          · simp [hm]

/-- Witness for C2: all three ids exist but the SPO bitmap excludes the
object. -/
theorem C2_delete_unstored_witness :
    (wDB1.Has wTrB).1 = false ∧ wDB1.Delete wTrB = (wDB1, some .notFound) :=
  ⟨by decide, C2_delete_unstored _ _ (by decide)⟩

theorem mem_kvPut {κ α : Type} [DecidableEq κ] {lt : κ → κ → Bool}
    {m : List (κ × α)} {q : κ} {v : α} {e : κ × α} (h : e ∈ kvPut lt m q v) :
    e = (q, v) ∨ e ∈ m := by
  induction m with
  | nil =>
    rw [kvPut] at h
    simp at h
    exact Or.inl h
  | cons f rest ih =>
    obtain ⟨k, w⟩ := f
    rw [kvPut] at h
    by_cases h1 : lt q k
    · rw [if_pos h1] at h
      simp only [List.mem_cons] at h ⊢
      tauto
    · rw [if_neg h1] at h
      by_cases h2 : q = k
      · rw [if_pos h2] at h
        simp only [List.mem_cons] at h ⊢
        tauto
      · rw [if_neg h2] at h
        simp only [List.mem_cons] at h ⊢
        rcases h with h | h
        · tauto
        · rcases ih h with h3 | h3 <;> tauto

theorem kvPut_mem_keep {κ α : Type} [DecidableEq κ] (lt : κ → κ → Bool) (v : α)
    {m : List (κ × α)} {q : κ} {e : κ × α} (h : e ∈ m) (hne : e.1 ≠ q) :
    e ∈ kvPut lt m q v := by
  induction m with
  | nil => cases h
  | cons f rest ih =>
    obtain ⟨k, w⟩ := f
    rw [kvPut]
    by_cases h1 : lt q k
    · rw [if_pos h1]
      simp only [List.mem_cons] at h ⊢
      tauto
    · rw [if_neg h1]
      by_cases h2 : q = k
      · rw [if_pos h2]
        simp only [List.mem_cons] at h ⊢
        rcases h with h | h
        · exfalso
          apply hne
          rw [h, h2]
        · tauto
      · rw [if_neg h2]
        simp only [List.mem_cons] at h ⊢
        rcases h with h | h
        · tauto
        · exact Or.inr (ih h)

theorem mem_kvDel_iff {κ α : Type} [DecidableEq κ]
    {m : List (κ × α)} {q : κ} {e : κ × α} :
    e ∈ kvDel m q ↔ (e ∈ m ∧ e.1 ≠ q) := by
  induction m with
  | nil => simp [kvDel]
  | cons f rest ih =>
    obtain ⟨k, w⟩ := f
    rw [kvDel]
    by_cases h1 : q = k
    · rw [if_pos h1]
      rw [ih]
      simp only [List.mem_cons]
      constructor
      · rintro ⟨h2, h3⟩
        exact ⟨Or.inr h2, h3⟩
      · rintro ⟨h2 | h2, h3⟩
        · exfalso
          apply h3
          rw [h2, h1]
        · exact ⟨h2, h3⟩
    · rw [if_neg h1]
      simp only [List.mem_cons, ih]
      constructor
      · rintro (h2 | ⟨h2, h3⟩)
        · refine ⟨Or.inl h2, ?_⟩
          rw [h2]
          exact fun hq => h1 hq.symm
        · exact ⟨Or.inr h2, h3⟩
      · rintro ⟨h2 | h2, h3⟩
        · exact Or.inl h2
        · exact Or.inr ⟨h2, h3⟩

theorem kvDel_sublist {κ α : Type} [DecidableEq κ] (m : List (κ × α)) (q : κ) :
    List.Sublist (kvDel m q) m := by
  induction m with
  | nil => rw [kvDel]
  | cons f rest ih =>
    obtain ⟨k, w⟩ := f
    rw [kvDel]
    by_cases h1 : q = k
    · rw [if_pos h1]
      exact ih.trans (List.sublist_cons_self _ _)
    · rw [if_neg h1]
      exact ih.cons₂ _

theorem kvSorted_kvDel {κ α : Type} [DecidableEq κ] {lt : κ → κ → Bool}
    {m : List (κ × α)} (hs : kvSorted lt m) (q : κ) :
    kvSorted lt (kvDel m q) :=
  List.Pairwise.sublist (kvDel_sublist m q) hs

theorem kvSorted_kvPut {κ α : Type} [DecidableEq κ] {lt : κ → κ → Bool}
    (htot : ∀ a b : κ, a ≠ b → lt a b = true ∨ lt b a = true)
    (htrans : ∀ a b c : κ, lt a b = true → lt b c = true → lt a c = true)
    {m : List (κ × α)} (hs : kvSorted lt m) (q : κ) (v : α) :
    kvSorted lt (kvPut lt m q v) := by
  induction m with
  | nil =>
    rw [kvPut]
    exact List.pairwise_singleton _ _
  | cons f rest ih =>
    obtain ⟨k, w⟩ := f
    obtain ⟨hk, hrest⟩ := List.pairwise_cons.mp hs
    rw [kvPut]
    by_cases h1 : lt q k
    · rw [if_pos h1]
      refine List.Pairwise.cons ?_ hs
      intro b hb
      rcases List.mem_cons.mp hb with rfl | hb
      · exact h1
      · exact htrans _ _ _ h1 (hk b hb)
    · rw [if_neg h1]
      by_cases h2 : q = k
      · rw [if_pos h2]
        subst h2
        exact List.Pairwise.cons hk hrest
      · rw [if_neg h2]
        refine List.Pairwise.cons ?_ (ih hrest)
        intro b hb
        rcases mem_kvPut hb with rfl | hb
        · rcases htot q k h2 with h3 | h3
          · exact absurd h3 h1
          · exact h3
        · exact hk b hb

theorem kvGet_mem {κ α : Type} [DecidableEq κ]
    {m : List (κ × α)} {q : κ} {v : α} (h : kvGet m q = some v) : (q, v) ∈ m := by
  induction m with
  | nil => simp [kvGet] at h
  | cons f rest ih =>
    obtain ⟨k, w⟩ := f
    rw [kvGet] at h
    by_cases h1 : q = k
    · rw [if_pos h1] at h
      rw [Option.some.injEq] at h
      exact List.mem_cons.mpr (Or.inl (by rw [h1, h]))
    · rw [if_neg h1] at h
      exact List.mem_cons.mpr (Or.inr (ih h))

theorem mem_kvGet {κ α : Type} [DecidableEq κ] {lt : κ → κ → Bool}
    (hirr : ∀ a : κ, lt a a = false)
    {m : List (κ × α)} (hs : kvSorted lt m) {q : κ} {v : α} (h : (q, v) ∈ m) :
    kvGet m q = some v := by
  induction m with
  | nil => cases h
  | cons f rest ih =>
    obtain ⟨k, w⟩ := f
    obtain ⟨hk, hrest⟩ := List.pairwise_cons.mp hs
    rw [kvGet]
    rcases List.mem_cons.mp h with h1 | h1
    · rw [Prod.mk.injEq] at h1
      obtain ⟨rfl, rfl⟩ := h1
      rw [if_pos rfl]
    · have hne : q ≠ k := by
        intro h2
        subst h2
        have h3 := hk _ h1
        rw [hirr] at h3
        cases h3
      rw [if_neg hne]
      exact ih hrest h1

theorem natLt_irrefl (a : Nat) : natLt a a = false := by simp [natLt]

theorem natLt_total (a b : Nat) (h : a ≠ b) : natLt a b = true ∨ natLt b a = true := by
  simp [natLt]
  omega

theorem natLt_trans (a b c : Nat) (h1 : natLt a b = true) (h2 : natLt b c = true) :
    natLt a c = true := by
  simp [natLt] at *
  omega

theorem pairLt_irrefl (a : Nat × Nat) : pairLt a a = false := by simp [pairLt]

theorem pairLt_total (a b : Nat × Nat) (h : a ≠ b) :
    pairLt a b = true ∨ pairLt b a = true := by
  obtain ⟨a1, a2⟩ := a
  obtain ⟨b1, b2⟩ := b
  simp only [Ne, Prod.mk.injEq, not_and] at h
  simp [pairLt]
  by_cases h1 : a1 = b1
  · subst h1
    have h2 := h rfl
    omega
  · omega

theorem pairLt_trans (a b c : Nat × Nat) (h1 : pairLt a b = true) (h2 : pairLt b c = true) :
    pairLt a c = true := by
  simp [pairLt] at *
  omega

theorem bytesLt_irrefl (a : Bytes) : bytesLt a a = false := by
  induction a with
  | nil => rfl
  | cons x xs ih => simp [bytesLt, ih]

theorem bytesLt_total (a : Bytes) : ∀ b : Bytes, a ≠ b → bytesLt a b = true ∨ bytesLt b a = true := by
  induction a with
  | nil =>
    intro b h
    cases b with
    | nil => exact absurd rfl h
    | cons y ys => left; rfl
  | cons x xs ih =>
    intro b h
    cases b with
    | nil => right; rfl
    | cons y ys =>
      by_cases h1 : x < y
      · left; simp [bytesLt, h1]
      · by_cases h2 : y < x
        · right; simp [bytesLt, h2]
        · have hxy : x = y := by omega
          subst hxy
          have hne : xs ≠ ys := by
            intro h3
            apply h
            rw [h3]
          rcases ih ys hne with h3 | h3
          · left; simp [bytesLt, h3]
          · right; simp [bytesLt, h3]

theorem bytesLt_trans (a : Bytes) : ∀ b c : Bytes,
    bytesLt a b = true → bytesLt b c = true → bytesLt a c = true := by
  induction a with
  | nil =>
    intro b c h1 h2
    cases b with
    | nil => exact h2
    | cons y ys =>
      cases c with
      | nil => simp [bytesLt] at h2
      | cons z zs => rfl
  | cons x xs ih =>
    intro b c h1 h2
    cases b with
    | nil => simp [bytesLt] at h1
    | cons y ys =>
      cases c with
      | nil => simp [bytesLt] at h2
      | cons z zs =>
        simp only [bytesLt] at h1 h2 ⊢
        by_cases hxy : x < y
        · by_cases hyz : y < z
          · rw [if_pos (by omega : x < z)]
          · simp only [if_neg hyz] at h2
            by_cases hzy : z < y
            · simp [hzy] at h2
            · have : y = z := by omega
              subst this
              rw [if_pos hxy]
        · simp only [if_neg hxy] at h1
          by_cases hyx : y < x
          · simp [hyx] at h1
          · have : x = y := by omega
            subst this
            rw [if_neg (by omega : ¬ x < x)] at h1
            by_cases hyz : x < z
            · rw [if_pos hyz]
            · simp only [if_neg hyz] at h2 ⊢
              by_cases hzy : z < x
              · simp [hzy] at h2
              · simp only [if_neg hzy] at h2 ⊢
                exact ih ys zs h1 h2

theorem bmSorted_bmAdd {m : List Nat} (hs : bmSorted m) (x : Nat) :
    bmSorted (bmAdd m x) := by
  induction m with
  | nil =>
    rw [bmAdd]
    exact List.pairwise_singleton _ _
  | cons y ys ih =>
    obtain ⟨hy, hys⟩ := List.pairwise_cons.mp hs
    rw [bmAdd]
    by_cases h1 : x < y
    · rw [if_pos h1]
      refine List.Pairwise.cons ?_ hs
      intro b hb
      rcases List.mem_cons.mp hb with rfl | hb
      · exact h1
      · exact h1.trans (hy b hb)
    · rw [if_neg h1]
      by_cases h2 : x = y
      · rw [if_pos h2]
        exact hs
      · rw [if_neg h2]
        refine List.Pairwise.cons ?_ (ih hys)
        intro b hb
        rcases (mem_bmAdd _ _ _).mp hb with hb | rfl
        · exact hy b hb
        · omega

theorem notInIndexLoop_eq {ms : List ((Nat × Nat) × List Nat)}
    (hs : kvSorted pairLt ms) (id : Nat) :
    notInIndexLoop ms id = true ↔ ¬ hasKey1 ms id := by
  induction ms with
  | nil => simp [notInIndexLoop, hasKey1]
  | cons e rest ih =>
    obtain ⟨k, bm⟩ := e
    obtain ⟨hk, hrest⟩ := List.pairwise_cons.mp hs
    rw [notInIndexLoop]
    by_cases h1 : k.1 = id
    · rw [if_pos h1]
      simp only [Bool.false_eq_true, false_iff, not_not]
      exact ⟨(k, bm), List.mem_cons_self _ _, h1⟩
    · rw [if_neg h1]
      by_cases h2 : id < k.1
      · rw [if_pos h2]
        simp only [true_iff]
        rintro ⟨f, hf, hf1⟩
        rcases List.mem_cons.mp hf with rfl | hf
        · exact h1 hf1
        · have h3 := hk f hf
          simp only [pairLt, decide_eq_true_eq] at h3
          omega
      · rw [if_neg h2]
        rw [ih hrest]
        have hk1 : k.1 < id := by omega
        constructor
        · rintro hno ⟨f, hf, hf1⟩
          rcases List.mem_cons.mp hf with rfl | hf
          · exact h1 hf1
          · exact hno ⟨f, hf, hf1⟩
        · rintro hno ⟨f, hf, hf1⟩
          exact hno ⟨f, List.mem_cons.mpr (Or.inr hf), hf1⟩

theorem notInIndex_eq {m : List ((Nat × Nat) × List Nat)} (hs : kvSorted pairLt m)
    {id : Nat} (h1 : 1 ≤ id) (h2 : id ≤ MaxTerms) :
    notInIndex m id = true ↔ ¬ hasKey1 m id := by
  rw [notInIndex]
  have hq : (id + 4294967295) % 4294967296 = id - 1 := by
    unfold MaxTerms at h2
    omega
  rw [hq]
  have hsuffix : kvSorted pairLt (m.dropWhile (fun e => decide (e.1.1 < id - 1))) :=
    List.Pairwise.sublist (List.dropWhile_sublist _) hs
  rw [notInIndexLoop_eq hsuffix]
  have hiff : hasKey1 (m.dropWhile (fun e => decide (e.1.1 < id - 1))) id ↔ hasKey1 m id := by
    constructor
    · rintro ⟨f, hf, hf1⟩
      exact ⟨f, (List.dropWhile_sublist _).subset hf, hf1⟩
    · rintro ⟨f, hf, hf1⟩
      refine ⟨f, ?_, hf1⟩
      rw [← List.takeWhile_append_dropWhile (p := fun e => decide (e.1.1 < id - 1)) (l := m)] at hf
      rcases List.mem_append.mp hf with hf2 | hf2
      · have h3 := List.mem_takeWhile_imp hf2
        simp only [decide_eq_true_eq] at h3
        omega
      · exact hf2
  rw [hiff]

theorem idxHas_iff_mem {m : List ((Nat × Nat) × List Nat)} (hs : kvSorted pairLt m)
    {a b c : Nat} :
    idxHas m a b c = true ↔ ∃ bm, ((a, b), bm) ∈ m ∧ c ∈ bm := by
  rw [idxHas]
  cases hg : kvGet m (a, b) with
  | none =>
    simp only [Bool.false_eq_true, false_iff]
    rintro ⟨bm, hbm, hc⟩
    rw [mem_kvGet pairLt_irrefl hs hbm] at hg
    cases hg
  | some bm =>
    constructor
    · intro h
      exact ⟨bm, kvGet_mem hg, List.elem_iff.mp h⟩
    · rintro ⟨bm2, hbm2, hc⟩
      have h2 := mem_kvGet pairLt_irrefl hs hbm2
      rw [hg, Option.some.injEq] at h2
      subst h2
      exact List.elem_iff.mpr hc

theorem idxHas_kvPut_bmAdd {m : List ((Nat × Nat) × List Nat)} {k1 k2 v a b c : Nat} :
    idxHas (kvPut pairLt m (k1, k2) (bmAdd ((kvGet m (k1, k2)).getD []) v)) a b c = true ↔
      (idxHas m a b c = true ∨ (a = k1 ∧ b = k2 ∧ c = v)) := by
  by_cases hab : ((a, b) : Nat × Nat) = (k1, k2)
  · rw [Prod.mk.injEq] at hab
    obtain ⟨rfl, rfl⟩ := hab
    rw [idxHas, idxHas, kvGet_kvPut_self]
    cases hg : kvGet m (a, b) with
    | none =>
      simp only [Option.getD_none]
      rw [bmAdd]
      simp [List.elem_iff]
    | some bm =>
      simp only [Option.getD_some]
      simp only [List.elem_iff, mem_bmAdd]
      simp
  · rw [idxHas, idxHas, kvGet_kvPut_ne pairLt m (k1, k2) (a, b) _ hab]
    constructor
    · exact Or.inl
    · rintro (h | ⟨rfl, rfl, rfl⟩)
      · exact h
      · exact absurd rfl hab

theorem idxHas_mono_idxAdd {m : List ((Nat × Nat) × List Nat)} {k1 k2 v a b c : Nat}
    (h : idxHas m a b c = true) : idxHas (idxAdd m k1 k2 v).2 a b c = true := by
  rw [idxAdd]
  by_cases hm : v ∈ (kvGet m (k1, k2)).getD []
  · rw [if_pos (List.elem_iff.mpr hm)]
    exact h
  · rw [if_neg (fun hcon => hm (List.elem_iff.mp hcon))]
    exact idxHas_kvPut_bmAdd.mpr (Or.inl h)

theorem idxRemove_ok_cases {m m2 : List ((Nat × Nat) × List Nat)} {k1 k2 v : Nat}
    (h : idxRemove m k1 k2 v = .ok m2) :
    ∃ bm, kvGet m (k1, k2) = some bm ∧ v ∈ bm ∧
      ((bm.filter (fun y => y ≠ v) = [] ∧ m2 = kvDel m (k1, k2)) ∨
       (bm.filter (fun y => y ≠ v) ≠ [] ∧
         m2 = kvPut pairLt m (k1, k2) (bm.filter (fun y => y ≠ v)))) := by
  unfold idxRemove at h
  cases hg : kvGet m (k1, k2) with
  | none => rw [hg] at h; cases h
  | some bm =>
    simp only [hg] at h
    by_cases hc : v ∈ bm
    · rw [if_pos (show bm.contains v = true from List.elem_iff.mpr hc)] at h
      by_cases he : bm.filter (fun y => y ≠ v) = []
      · rw [if_pos (by rw [he]; rfl)] at h
        rw [Except.ok.injEq] at h
        exact ⟨bm, rfl, hc, Or.inl ⟨he, h.symm⟩⟩
      · rw [if_neg (by simpa [List.length_eq_zero] using he)] at h
        rw [Except.ok.injEq] at h
        exact ⟨bm, rfl, hc, Or.inr ⟨he, h.symm⟩⟩
    · rw [if_neg (fun hcon => hc (List.elem_iff.mp hcon))] at h
      cases h

theorem idxRemove_err {m : List ((Nat × Nat) × List Nat)} {k1 k2 v : Nat} {e : Err}
    (h : idxRemove m k1 k2 v = .error e) : e = .notFound ∧ idxHas m k1 k2 v = false := by
  unfold idxRemove at h
  rw [idxHas]
  cases hg : kvGet m (k1, k2) with
  | none =>
    rw [hg] at h
    rw [Except.error.injEq] at h
    exact ⟨h.symm, rfl⟩
  | some bm =>
    simp only [hg] at h
    by_cases hc : v ∈ bm
    · rw [if_pos (show bm.contains v = true from List.elem_iff.mpr hc)] at h
      by_cases he : bm.filter (fun y => y ≠ v) = []
      · rw [if_pos (by rw [he]; rfl)] at h
        cases h
      · rw [if_neg (by simpa [List.length_eq_zero] using he)] at h
        cases h
    · rw [if_neg (fun hcon => hc (List.elem_iff.mp hcon))] at h
      rw [Except.error.injEq] at h
      refine ⟨h.symm, ?_⟩
      simp only [List.elem_iff]
      simpa using hc

theorem idxRemove_of_has {m : List ((Nat × Nat) × List Nat)} {k1 k2 v : Nat}
    (h : idxHas m k1 k2 v = true) : ∃ m2, idxRemove m k1 k2 v = .ok m2 := by
  cases hr : idxRemove m k1 k2 v with
  | ok m2 => exact ⟨m2, rfl⟩
  | error e =>
    obtain ⟨-, hfalse⟩ := idxRemove_err hr
    rw [h] at hfalse
    cases hfalse

theorem idxHas_idxRemove {m m2 : List ((Nat × Nat) × List Nat)} {k1 k2 v : Nat}
    (h : idxRemove m k1 k2 v = .ok m2) {a b c : Nat} :
    idxHas m2 a b c = true ↔ (idxHas m a b c = true ∧ ¬(a = k1 ∧ b = k2 ∧ c = v)) := by
  obtain ⟨bm, hg, hv, hcase⟩ := idxRemove_ok_cases h
  rcases hcase with ⟨hnil, rfl⟩ | ⟨hnil, rfl⟩
  · by_cases hab : ((a, b) : Nat × Nat) = (k1, k2)
    · rw [Prod.mk.injEq] at hab
      obtain ⟨rfl, rfl⟩ := hab
      rw [idxHas, kvGet_kvDel_self]
      simp only [Bool.false_eq_true, false_iff]
      rintro ⟨h1, h2⟩
      rw [idxHas, hg] at h1
      simp only [List.elem_iff] at h1
      have hcv : c = v := by
        by_contra hne
        have hmem : c ∈ bm.filter (fun y => y ≠ v) :=
          List.mem_filter.mpr ⟨h1, by simpa using hne⟩
        rw [hnil] at hmem
        cases hmem
      refine h2 ⟨?_, ?_, hcv⟩ <;> trivial
    · rw [idxHas, kvGet_kvDel_ne _ _ _ hab, ← idxHas]
      constructor
      · intro h1
        refine ⟨h1, ?_⟩
        rintro ⟨rfl, rfl, rfl⟩
        exact hab rfl
      · exact fun h1 => h1.1
  · by_cases hab : ((a, b) : Nat × Nat) = (k1, k2)
    · rw [Prod.mk.injEq] at hab
      obtain ⟨rfl, rfl⟩ := hab
      rw [idxHas, kvGet_kvPut_self, idxHas, hg]
      simp only [List.elem_iff, List.mem_filter]
      constructor
      · rintro ⟨h1, h2⟩
        refine ⟨h1, ?_⟩
        rintro ⟨-, -, rfl⟩
        simp at h2
      · rintro ⟨h1, h2⟩
        refine ⟨h1, ?_⟩
        simp only [decide_eq_true_eq]
        intro hcv
        refine h2 ⟨?_, ?_, hcv⟩ <;> trivial
    · rw [idxHas, kvGet_kvPut_ne pairLt m (k1, k2) (a, b) _ hab, ← idxHas]
      constructor
      · intro h1
        refine ⟨h1, ?_⟩
        rintro ⟨rfl, rfl, rfl⟩
        exact hab rfl
      · exact fun h1 => h1.1

theorem hasKey1_mono_idxAdd {m : List ((Nat × Nat) × List Nat)} {k1 k2 v id : Nat}
    (h : hasKey1 m id) : hasKey1 (idxAdd m k1 k2 v).2 id := by
  obtain ⟨e, he, h1⟩ := h
  rw [idxAdd]
  by_cases hm : v ∈ (kvGet m (k1, k2)).getD []
  · rw [if_pos (show ((kvGet m (k1, k2)).getD []).contains v = true from List.elem_iff.mpr hm)]
    exact ⟨e, he, h1⟩
  · rw [if_neg (fun hcon => hm (List.elem_iff.mp hcon))]
    by_cases hek : e.1 = (k1, k2)
    · refine ⟨((k1, k2), bmAdd ((kvGet m (k1, k2)).getD []) v),
        kvGet_mem (kvGet_kvPut_self pairLt m (k1, k2) _), ?_⟩
      have hk : k1 = id := by rw [← h1, hek]
      exact hk
    · exact ⟨e, kvPut_mem_keep pairLt _ he hek, h1⟩

theorem hasKey1_idxAdd_rev {m : List ((Nat × Nat) × List Nat)} {k1 k2 v id : Nat}
    (h : hasKey1 (idxAdd m k1 k2 v).2 id) : hasKey1 m id ∨ id = k1 := by
  rw [idxAdd] at h
  by_cases hm : v ∈ (kvGet m (k1, k2)).getD []
  · rw [if_pos (show ((kvGet m (k1, k2)).getD []).contains v = true from
      List.elem_iff.mpr hm)] at h
    exact Or.inl h
  · rw [if_neg (fun hcon => hm (List.elem_iff.mp hcon))] at h
    obtain ⟨e, he, h1⟩ := h
    rcases mem_kvPut he with rfl | he2
    · exact Or.inr h1.symm
    · exact Or.inl ⟨e, he2, h1⟩

theorem hasKey1_idxRemove_keep {m m2 : List ((Nat × Nat) × List Nat)} {k1 k2 v id : Nat}
    (h : idxRemove m k1 k2 v = .ok m2) (hk : hasKey1 m id) (hne : id ≠ k1) :
    hasKey1 m2 id := by
  obtain ⟨bm, hg, hv, hcase⟩ := idxRemove_ok_cases h
  obtain ⟨e, he, h1⟩ := hk
  have hek : e.1 ≠ (k1, k2) := by
    intro h2
    apply hne
    rw [← h1, h2]
  rcases hcase with ⟨-, rfl⟩ | ⟨-, rfl⟩
  · exact ⟨e, mem_kvDel_iff.mpr ⟨he, hek⟩, h1⟩
  · exact ⟨e, kvPut_mem_keep pairLt _ he hek, h1⟩

theorem hasKey1_idxRemove_rev {m m2 : List ((Nat × Nat) × List Nat)} {k1 k2 v id : Nat}
    (h : idxRemove m k1 k2 v = .ok m2) (hk : hasKey1 m2 id) : hasKey1 m id := by
  obtain ⟨bm, hg, hv, hcase⟩ := idxRemove_ok_cases h
  obtain ⟨e, he, h1⟩ := hk
  rcases hcase with ⟨-, rfl⟩ | ⟨-, rfl⟩
  · exact ⟨e, (mem_kvDel_iff.mp he).1, h1⟩
  · rcases mem_kvPut he with rfl | he2
    · exact ⟨((k1, k2), bm), kvGet_mem hg, h1⟩
    · exact ⟨e, he2, h1⟩

theorem agreeSpo_forall {db : DB} (hI : InvS db) {a b c : Nat}
    (h : idxHas db.spo a b c = true) :
    idxHas db.osp c a b = true ∧ idxHas db.pos b c a = true := by
  obtain ⟨bm, hbm, hc⟩ := (idxHas_iff_mem hI.spoSorted).mp h
  exact hI.agreeSpo _ hbm _ hc

theorem agreeOsp_forall {db : DB} (hI : InvS db) {a b c : Nat}
    (h : idxHas db.osp a b c = true) : idxHas db.spo b c a = true := by
  obtain ⟨bm, hbm, hc⟩ := (idxHas_iff_mem hI.ospSorted).mp h
  exact hI.agreeOsp _ hbm _ hc

theorem agreePos_forall {db : DB} (hI : InvS db) {a b c : Nat}
    (h : idxHas db.pos a b c = true) : idxHas db.spo c a b = true := by
  obtain ⟨bm, hbm, hc⟩ := (idxHas_iff_mem hI.posSorted).mp h
  exact hI.agreePos _ hbm _ hc

theorem idxAdd_false_has {m m2 : List ((Nat × Nat) × List Nat)} {k1 k2 v : Nat}
    (h : idxAdd m k1 k2 v = (false, m2)) : idxHas m k1 k2 v = true := by
  obtain ⟨-, bm, hbm, hv⟩ := idxAdd_false h
  rw [idxHas, hbm]
  exact List.elem_iff.mpr hv

theorem idxAdd_true_has {m m2 : List ((Nat × Nat) × List Nat)} {k1 k2 v : Nat}
    (h : idxAdd m k1 k2 v = (true, m2)) : idxHas m k1 k2 v = false := by
  obtain ⟨-, hv⟩ := idxAdd_true h
  rw [idxHas]
  cases hg : kvGet m (k1, k2) with
  | none => rfl
  | some bm =>
    rw [hg, Option.getD_some] at hv
    rw [Bool.eq_false_iff]
    exact fun hcon => hv (List.elem_iff.mp hcon)

theorem storeTriple_under_inv {db : DB}
    (hOsp : ∀ a b c : Nat, idxHas db.osp a b c = true → idxHas db.spo b c a = true)
    (hPos : ∀ a b c : Nat, idxHas db.pos a b c = true → idxHas db.spo c a b = true)
    {s p o : Nat} {db2 : DB}
    (h : db.storeTriple s p o = .ok db2) :
    (db2 = db ∧ idxHas db.spo s p o = true) ∨
    (idxHas db.spo s p o = false ∧
      db2 = { db with
        spo := kvPut pairLt db.spo (s, p) (bmAdd ((kvGet db.spo (s, p)).getD []) o),
        osp := kvPut pairLt db.osp (o, s) (bmAdd ((kvGet db.osp (o, s)).getD []) p),
        pos := kvPut pairLt db.pos (p, o) (bmAdd ((kvGet db.pos (p, o)).getD []) s) }) := by
  unfold DB.storeTriple at h
  cases ha : idxAdd db.spo s p o with
  | mk b1 m1 =>
    rw [ha] at h
    cases b1 with
    | false =>
      simp at h
      exact Or.inl ⟨h.symm, idxAdd_false_has ha⟩
    | true =>
      obtain ⟨hm1, -⟩ := idxAdd_true ha
      have hno := idxAdd_true_has ha
      cases hb : idxAdd db.osp o s p with
      | mk b2 m2 =>
        simp only [hb] at h
        cases b2 with
        | false =>
          have hosp := idxAdd_false_has hb
          have := hOsp _ _ _ hosp
          rw [hno] at this
          cases this
        | true =>
          obtain ⟨hm2, -⟩ := idxAdd_true hb
          cases hc : idxAdd db.pos p o s with
          | mk b3 m3 =>
            simp only [hc] at h
            cases b3 with
            | false =>
              have hpos := idxAdd_false_has hc
              have := hPos _ _ _ hpos
              rw [hno] at this
              cases this
            | true =>
              obtain ⟨hm3, -⟩ := idxAdd_true hc
              simp at h
              refine Or.inr ⟨hno, ?_⟩
              rw [← h, hm1, hm2, hm3]

theorem addTerm_cases {db : DB} {t : Term} {id : Nat} {db2 : DB}
    (h : db.addTerm t = .ok (id, db2)) :
    (db = db2 ∧ kvGet db.iterms (encode db.base t) = some id) ∨
    (kvGet db.iterms (encode db.base t) = none ∧ id = db.seq + 1 ∧ id ≤ MaxTerms ∧
      db2 = { db with
        seq := id
        terms := kvPut natLt db.terms id (encode db.base t)
        iterms := kvPut bytesLt db.iterms (encode db.base t) id }) := by
  unfold DB.addTerm at h
  cases hg : kvGet db.iterms (encode db.base t) with
  | some i =>
    simp only [hg] at h
    rw [Except.ok.injEq, Prod.mk.injEq] at h
    obtain ⟨h1, h2⟩ := h
    left
    refine ⟨h2, ?_⟩
    rw [h1]
  | none =>
    simp only [hg] at h
    by_cases hf : db.seq + 1 > MaxTerms
    · simp [hf] at h
    · simp only [hf, reduceIte] at h
      rw [Except.ok.injEq, Prod.mk.injEq] at h
      obtain ⟨h1, h2⟩ := h
      right
      refine ⟨rfl, h1.symm, ?_, ?_⟩
      · rw [← h1]
        omega
      · rw [← h2, ← h1]

theorem addTerm_dict {db : DB} {t : Term} {tid : Nat} {db2 : DB}
    (hD : DictInv db) (h : db.addTerm t = .ok (tid, db2)) :
    DictInv db2 ∧ db2.base = db.base ∧ db2.spo = db.spo ∧ db2.osp = db.osp ∧
    db2.pos = db.pos ∧ db.seq ≤ db2.seq ∧ 1 ≤ tid ∧ tid ≤ db2.seq ∧
    kvGet db2.iterms (encode db.base t) = some tid ∧
    (∀ j, (∃ e ∈ db2.terms, e.1 = j) ↔ ((∃ e ∈ db.terms, e.1 = j) ∨ j = tid)) ∧
    (∀ e, e ∈ db.terms → e ∈ db2.terms) ∧
    (∀ bt jd, kvGet db.iterms bt = some jd → kvGet db2.iterms bt = some jd) ∧
    (∀ x, (kvGet db.terms x).isSome = true → (kvGet db2.terms x).isSome = true) := by
  obtain ⟨hts, his, hfwd, hbwd, hbnd, hmax⟩ := hD
  rcases addTerm_cases h with ⟨h2, hg⟩ | ⟨hg, hid, hidM, h2⟩
  · subst h2
    have hmem : (Prod.mk (encode db.base t) tid) ∈ db.iterms := kvGet_mem hg
    have hterm : kvGet db.terms tid = some (encode db.base t) := hbwd _ hmem
    have hdom : (tid, encode db.base t) ∈ db.terms := kvGet_mem hterm
    refine ⟨⟨hts, his, hfwd, hbwd, hbnd, hmax⟩, rfl, rfl, rfl, rfl, le_refl _,
      (hbnd _ hdom).1, (hbnd _ hdom).2, hg, ?_, fun e he => he, fun bt jd hj => hj,
      fun x hx => hx⟩
    intro j
    constructor
    · intro hj
      exact Or.inl hj
    · rintro (hj | hj)
      · exact hj
      · exact ⟨(tid, encode db.base t), hdom, hj.symm⟩
  · subst h2
    subst hid
    have hfresh : ∀ e, e ∈ db.terms → e.1 ≠ db.seq + 1 := by
      intro e he hcon
      have := (hbnd e he).2
      omega
    refine ⟨?_, rfl, rfl, rfl, rfl, Nat.le_succ _, Nat.le_add_left 1 db.seq, le_refl _,
      kvGet_kvPut_self bytesLt db.iterms _ _, ?_, ?_, ?_, ?_⟩
    · refine ⟨kvSorted_kvPut natLt_total natLt_trans hts _ _,
        kvSorted_kvPut bytesLt_total bytesLt_trans his _ _, ?_, ?_, ?_, hidM⟩
      · intro e he
        rcases mem_kvPut he with rfl | he2
        · exact kvGet_kvPut_self bytesLt db.iterms _ _
        · have hne : e.2 ≠ encode db.base t := by
            intro hcon
            have h3 := hfwd e he2
            rw [hcon, hg] at h3
            cases h3
          rw [kvGet_kvPut_ne bytesLt db.iterms (encode db.base t) e.2 _ hne]
          exact hfwd e he2
      · intro e he
        rcases mem_kvPut he with rfl | he2
        · exact kvGet_kvPut_self natLt db.terms _ _
        · have hne : e.2 ≠ db.seq + 1 := by
            intro hcon
            have h3 := hbwd e he2
            rw [hcon] at h3
            exact hfresh _ (kvGet_mem h3) rfl
          rw [kvGet_kvPut_ne natLt db.terms (db.seq + 1) e.2 _ hne]
          exact hbwd e he2
      · intro e he
        rcases mem_kvPut he with rfl | he2
        · exact ⟨Nat.le_add_left 1 db.seq, le_refl _⟩
        · have hb2 := hbnd e he2
          exact ⟨hb2.1, le_trans hb2.2 (Nat.le_succ _)⟩
    · intro j
      constructor
      · rintro ⟨e, he, rfl⟩
        rcases mem_kvPut he with rfl | he2
        · exact Or.inr rfl
        · exact Or.inl ⟨e, he2, rfl⟩
      · rintro (⟨e, he, rfl⟩ | rfl)
        · exact ⟨e, kvPut_mem_keep natLt _ he (hfresh e he), rfl⟩
        · exact ⟨(db.seq + 1, encode db.base t),
            kvGet_mem (kvGet_kvPut_self natLt db.terms _ _), rfl⟩
    · intro e he
      exact kvPut_mem_keep natLt _ he (hfresh e he)
    · intro bt jd hj
      have hne : bt ≠ encode db.base t := by
        intro hcon
        rw [hcon, hg] at hj
        cases hj
      rw [kvGet_kvPut_ne bytesLt db.iterms (encode db.base t) bt _ hne]
      exact hj
    · intro x hx
      by_cases hxe : x = db.seq + 1
      · subst hxe
        rw [kvGet_kvPut_self natLt db.terms _ _]
        rfl
      · rw [kvGet_kvPut_ne natLt db.terms (db.seq + 1) x _ hxe]
        exact hx

theorem bmAdd_ne_nil (m : List Nat) (x : Nat) : bmAdd m x ≠ [] := by
  cases m with
  | nil => rw [bmAdd]; exact List.cons_ne_nil _ _
  | cons y ys =>
    rw [bmAdd]
    by_cases h1 : x < y
    · rw [if_pos h1]; exact List.cons_ne_nil _ _
    · rw [if_neg h1]
      by_cases h2 : x = y
      · rw [if_pos h2]; exact List.cons_ne_nil _ _
      · rw [if_neg h2]; exact List.cons_ne_nil _ _

theorem hasKey1_kvPut {m : List ((Nat × Nat) × List Nat)} {k1 k2 : Nat} {bm : List Nat}
    {id : Nat} (h : hasKey1 m id) : hasKey1 (kvPut pairLt m (k1, k2) bm) id := by
  obtain ⟨e, he, h1⟩ := h
  by_cases hek : e.1 = (k1, k2)
  · refine ⟨((k1, k2), bm), kvGet_mem (kvGet_kvPut_self pairLt m (k1, k2) bm), ?_⟩
    have : k1 = id := by rw [← h1, hek]
    exact this
  · exact ⟨e, kvPut_mem_keep pairLt bm he hek, h1⟩

theorem hasKey1_kvPut_self {m : List ((Nat × Nat) × List Nat)} {k1 k2 : Nat}
    {bm : List Nat} : hasKey1 (kvPut pairLt m (k1, k2) bm) k1 :=
  ⟨((k1, k2), bm), kvGet_mem (kvGet_kvPut_self pairLt m (k1, k2) bm), rfl⟩

theorem InvS_insertTx {db : DB} {tr : Triple} {dbf : DB}
    (hI : InvS db) (h : db.insertTx tr = .ok dbf) : InvS dbf := by
  unfold DB.insertTx at h
  cases ha : db.addTerm (.uri tr.subj) with
  | error e => simp [ha] at h
  | ok r1 =>
  obtain ⟨sID, db1⟩ := r1
  simp only [ha] at h
  cases hb : db1.addTerm (.uri tr.pred) with
  | error e => simp [hb] at h
  | ok r2 =>
  obtain ⟨pID, db2⟩ := r2
  simp only [hb] at h
  cases hc : db2.addTerm tr.obj with
  | error e => simp [hc] at h
  | ok r3 =>
  obtain ⟨oID, db3⟩ := r3
  simp only [hc] at h
  obtain ⟨hD1, hbase1, hspo1, hosp1, hpos1, hseq1, hl1, hu1, hg1, hdom1, hkeep1, hmono1,
    hsome1⟩ := addTerm_dict hI.dict ha
  obtain ⟨hD2, hbase2, hspo2, hosp2, hpos2, hseq2, hl2, hu2, hg2, hdom2, hkeep2, hmono2,
    hsome2⟩ := addTerm_dict hD1 hb
  obtain ⟨hD3, hbase3, hspo3, hosp3, hpos3, hseq3, hl3, hu3, hg3, hdom3, hkeep3, hmono3,
    hsome3⟩ := addTerm_dict hD2 hc
  have hSPO : db3.spo = db.spo := by rw [hspo3, hspo2, hspo1]
  have hOSP : db3.osp = db.osp := by rw [hosp3, hosp2, hosp1]
  have hPOS : db3.pos = db.pos := by rw [hpos3, hpos2, hpos1]
  have hgS : kvGet db3.iterms (encode db.base (.uri tr.subj)) = some sID :=
    hmono3 _ _ (hmono2 _ _ hg1)
  have hgP : kvGet db3.iterms (encode db.base (.uri tr.pred)) = some pID := by
    rw [hbase1] at hg2
    exact hmono3 _ _ hg2
  have hgO : kvGet db3.iterms (encode db.base tr.obj) = some oID := by
    rw [hbase2, hbase1] at hg3
    exact hg3
  have hdS : (kvGet db3.terms sID).isSome = true := by
    rw [hD3.2.2.2.1 _ (kvGet_mem hgS)]; rfl
  have hdP : (kvGet db3.terms pID).isSome = true := by
    rw [hD3.2.2.2.1 _ (kvGet_mem hgP)]; rfl
  have hdO : (kvGet db3.terms oID).isSome = true := by
    rw [hD3.2.2.2.1 _ (kvGet_mem hgO)]; rfl
  have hdomC : ∀ j, (∃ e ∈ db3.terms, e.1 = j) ↔
      ((∃ e ∈ db.terms, e.1 = j) ∨ j = sID ∨ j = pID ∨ j = oID) := by
    intro j
    rw [hdom3, hdom2, hdom1]
    constructor
    · rintro (((hx | hx) | hx) | hx)
      · exact Or.inl hx
      · exact Or.inr (Or.inl hx)
      · exact Or.inr (Or.inr (Or.inl hx))
      · exact Or.inr (Or.inr (Or.inr hx))
    · rintro (hx | hx | hx | hx)
      · exact Or.inl (Or.inl (Or.inl hx))
      · exact Or.inl (Or.inl (Or.inr hx))
      · exact Or.inl (Or.inr hx)
      · exact Or.inr hx
  have hsomeC : ∀ x, (kvGet db.terms x).isSome = true → (kvGet db3.terms x).isSome = true :=
    fun x hx => hsome3 _ (hsome2 _ (hsome1 _ hx))
  have hOspF : ∀ a b c : Nat, idxHas db3.osp a b c = true → idxHas db3.spo b c a = true := by
    rw [hOSP, hSPO]
    exact fun a b c hx => agreeOsp_forall hI hx
  have hPosF : ∀ a b c : Nat, idxHas db3.pos a b c = true → idxHas db3.spo c a b = true := by
    rw [hPOS, hSPO]
    exact fun a b c hx => agreePos_forall hI hx
  rcases storeTriple_under_inv hOspF hPosF h with ⟨heq, hhas⟩ | ⟨hno, heq⟩
  · rw [hSPO] at hhas
    rw [heq]
    refine InvS.mk ?_ ?_ ?_ ?_ ?_ ?_ ?_ ?_ ?_ hD3 ?_ ?_
    · rw [hSPO]; exact hI.spoSorted
    · rw [hOSP]; exact hI.ospSorted
    · rw [hPOS]; exact hI.posSorted
    · rw [hSPO]; exact hI.spoBm
    · rw [hOSP]; exact hI.ospBm
    · rw [hPOS]; exact hI.posBm
    · rw [hSPO, hOSP, hPOS]; exact hI.agreeSpo
    · rw [hOSP, hSPO]; exact hI.agreeOsp
    · rw [hPOS, hSPO]; exact hI.agreePos
    · intro e he
      have hj := (hdomC e.1).mp ⟨e, he, rfl⟩
      rw [hSPO, hOSP, hPOS]
      rcases hj with ⟨e2, he2, heq2⟩ | h1 | h1 | h1
      · have h3 := hI.orphanFree e2 he2
        rw [heq2] at h3
        exact h3
      · rw [h1]
        obtain ⟨bm, hbm, -⟩ := (idxHas_iff_mem hI.spoSorted).mp hhas
        exact Or.inl ⟨((sID, pID), bm), hbm, rfl⟩
      · rw [h1]
        obtain ⟨-, hposH⟩ := agreeSpo_forall hI hhas
        obtain ⟨bm, hbm, -⟩ := (idxHas_iff_mem hI.posSorted).mp hposH
        exact Or.inr (Or.inr ⟨((pID, oID), bm), hbm, rfl⟩)
      · rw [h1]
        obtain ⟨hospH, -⟩ := agreeSpo_forall hI hhas
        obtain ⟨bm, hbm, -⟩ := (idxHas_iff_mem hI.ospSorted).mp hospH
        exact Or.inr (Or.inl ⟨((oID, sID), bm), hbm, rfl⟩)
    · intro e he
      rw [hSPO] at he
      obtain ⟨hh1, hh2, hh3⟩ := hI.spoRefs e he
      exact ⟨hsomeC _ hh1, hsomeC _ hh2, fun c hc2 => hsomeC _ (hh3 c hc2)⟩
  · rw [hSPO] at hno
    rw [heq, hSPO, hOSP, hPOS]
    have hbm0spo : bmSorted ((kvGet db.spo (sID, pID)).getD []) := by
      cases hg : kvGet db.spo (sID, pID) with
      | none => exact List.Pairwise.nil
      | some bm => exact (hI.spoBm _ (kvGet_mem hg)).1
    have hbm0osp : bmSorted ((kvGet db.osp (oID, sID)).getD []) := by
      cases hg : kvGet db.osp (oID, sID) with
      | none => exact List.Pairwise.nil
      | some bm => exact (hI.ospBm _ (kvGet_mem hg)).1
    have hbm0pos : bmSorted ((kvGet db.pos (pID, oID)).getD []) := by
      cases hg : kvGet db.pos (pID, oID) with
      | none => exact List.Pairwise.nil
      | some bm => exact (hI.posBm _ (kvGet_mem hg)).1
    have hsortP1 : kvSorted pairLt
        (kvPut pairLt db.spo (sID, pID) (bmAdd ((kvGet db.spo (sID, pID)).getD []) oID)) :=
      kvSorted_kvPut pairLt_total pairLt_trans hI.spoSorted _ _
    have hsortP2 : kvSorted pairLt
        (kvPut pairLt db.osp (oID, sID) (bmAdd ((kvGet db.osp (oID, sID)).getD []) pID)) :=
      kvSorted_kvPut pairLt_total pairLt_trans hI.ospSorted _ _
    have hsortP3 : kvSorted pairLt
        (kvPut pairLt db.pos (pID, oID) (bmAdd ((kvGet db.pos (pID, oID)).getD []) sID)) :=
      kvSorted_kvPut pairLt_total pairLt_trans hI.posSorted _ _
    refine InvS.mk hsortP1 hsortP2 hsortP3 ?_ ?_ ?_ ?_ ?_ ?_ hD3 ?_ ?_
    · intro e he
      rcases mem_kvPut he with rfl | he2
      · exact ⟨bmSorted_bmAdd hbm0spo _, bmAdd_ne_nil _ _⟩
      · exact hI.spoBm e he2
    · intro e he
      rcases mem_kvPut he with rfl | he2
      · exact ⟨bmSorted_bmAdd hbm0osp _, bmAdd_ne_nil _ _⟩
      · exact hI.ospBm e he2
    · intro e he
      rcases mem_kvPut he with rfl | he2
      · exact ⟨bmSorted_bmAdd hbm0pos _, bmAdd_ne_nil _ _⟩
      · exact hI.posBm e he2
    · intro e he c hc2
      obtain ⟨⟨a, b⟩, bm⟩ := e
      have hHas : idxHas
          (kvPut pairLt db.spo (sID, pID) (bmAdd ((kvGet db.spo (sID, pID)).getD []) oID))
          a b c = true :=
        (idxHas_iff_mem hsortP1).mpr ⟨bm, he, hc2⟩
      rcases idxHas_kvPut_bmAdd.mp hHas with hold | ⟨h1, h2, h3⟩
      · obtain ⟨ho1, ho2⟩ := agreeSpo_forall hI hold
        exact ⟨idxHas_kvPut_bmAdd.mpr (Or.inl ho1), idxHas_kvPut_bmAdd.mpr (Or.inl ho2)⟩
      · subst h1; subst h2; subst h3
        exact ⟨idxHas_kvPut_bmAdd.mpr (Or.inr ⟨rfl, rfl, rfl⟩),
          idxHas_kvPut_bmAdd.mpr (Or.inr ⟨rfl, rfl, rfl⟩)⟩
    · intro e he c hc2
      obtain ⟨⟨a, b⟩, bm⟩ := e
      have hHas : idxHas
          (kvPut pairLt db.osp (oID, sID) (bmAdd ((kvGet db.osp (oID, sID)).getD []) pID))
          a b c = true :=
        (idxHas_iff_mem hsortP2).mpr ⟨bm, he, hc2⟩
      rcases idxHas_kvPut_bmAdd.mp hHas with hold | ⟨h1, h2, h3⟩
      · exact idxHas_kvPut_bmAdd.mpr (Or.inl (agreeOsp_forall hI hold))
      · subst h1; subst h2; subst h3
        exact idxHas_kvPut_bmAdd.mpr (Or.inr ⟨rfl, rfl, rfl⟩)
    · intro e he c hc2
      obtain ⟨⟨a, b⟩, bm⟩ := e
      have hHas : idxHas
          (kvPut pairLt db.pos (pID, oID) (bmAdd ((kvGet db.pos (pID, oID)).getD []) sID))
          a b c = true :=
        (idxHas_iff_mem hsortP3).mpr ⟨bm, he, hc2⟩
      rcases idxHas_kvPut_bmAdd.mp hHas with hold | ⟨h1, h2, h3⟩
      · exact idxHas_kvPut_bmAdd.mpr (Or.inl (agreePos_forall hI hold))
      · subst h1; subst h2; subst h3
        exact idxHas_kvPut_bmAdd.mpr (Or.inr ⟨rfl, rfl, rfl⟩)
    · intro e he
      have hj := (hdomC e.1).mp ⟨e, he, rfl⟩
      rcases hj with ⟨e2, he2, heq2⟩ | h1 | h1 | h1
      · have h3 := hI.orphanFree e2 he2
        rw [heq2] at h3
        rcases h3 with h3 | h3 | h3
        · exact Or.inl (hasKey1_kvPut h3)
        · exact Or.inr (Or.inl (hasKey1_kvPut h3))
        · exact Or.inr (Or.inr (hasKey1_kvPut h3))
      · rw [h1]
        exact Or.inl hasKey1_kvPut_self
      · rw [h1]
        exact Or.inr (Or.inr hasKey1_kvPut_self)
      · rw [h1]
        exact Or.inr (Or.inl hasKey1_kvPut_self)
    · intro e he
      rcases mem_kvPut he with rfl | he2
      · refine ⟨hdS, hdP, ?_⟩
        intro c hc2
        rcases (mem_bmAdd _ _ _).mp hc2 with hc3 | rfl
        · cases hg : kvGet db.spo (sID, pID) with
          | none =>
            rw [hg] at hc3
            cases hc3
          | some bm =>
            rw [hg] at hc3
            obtain ⟨-, -, hh3⟩ := hI.spoRefs _ (kvGet_mem hg)
            exact hsomeC _ (hh3 c hc3)
        · exact hdO
      · obtain ⟨hh1, hh2, hh3⟩ := hI.spoRefs e he2
        exact ⟨hsomeC _ hh1, hsomeC _ hh2, fun c hc2 => hsomeC _ (hh3 c hc2)⟩

theorem kvSorted_idxRemove {m m2 : List ((Nat × Nat) × List Nat)} {k1 k2 v : Nat}
    (hs : kvSorted pairLt m) (h : idxRemove m k1 k2 v = .ok m2) :
    kvSorted pairLt m2 := by
  obtain ⟨bm, hg, hv, hcase⟩ := idxRemove_ok_cases h
  rcases hcase with ⟨-, rfl⟩ | ⟨-, rfl⟩
  · exact kvSorted_kvDel hs _
  · exact kvSorted_kvPut pairLt_total pairLt_trans hs _ _

theorem bmOk_idxRemove {m m2 : List ((Nat × Nat) × List Nat)} {k1 k2 v : Nat}
    (hb : ∀ e ∈ m, bmSorted e.2 ∧ e.2 ≠ []) (h : idxRemove m k1 k2 v = .ok m2) :
    ∀ e ∈ m2, bmSorted e.2 ∧ e.2 ≠ [] := by
  obtain ⟨bm, hg, hv, hcase⟩ := idxRemove_ok_cases h
  rcases hcase with ⟨-, rfl⟩ | ⟨hnil, rfl⟩
  · intro e he
    exact hb e (mem_kvDel_iff.mp he).1
  · intro e he
    rcases mem_kvPut he with rfl | he2
    · refine ⟨List.Pairwise.filter _ (hb _ (kvGet_mem hg)).1, hnil⟩
    · exact hb e he2

theorem mem_unique {s p o j : Nat} : j ∈ unique s p o ↔ (j = s ∨ j = p ∨ j = o) := by
  rw [unique]
  by_cases h1 : p = s <;> by_cases h2 : o = s <;> by_cases h3 : o = p <;>
    simp [h1, h2, h3] <;> tauto

theorem unique_nodup (s p o : Nat) : (unique s p o).Nodup := by
  rw [unique]
  by_cases h1 : p = s <;> by_cases h2 : o = s <;> by_cases h3 : o = p <;>
    simp [h1, h2, h3] <;> omega

theorem removeTerm_spec {db : DB} {j : Nat} {db2 : DB} (hD : DictInv db)
    (h : db.removeTerm j = .ok db2) :
    DictInv db2 ∧ db2.base = db.base ∧ db2.spo = db.spo ∧ db2.osp = db.osp ∧
    db2.pos = db.pos ∧ db2.seq = db.seq ∧
    (∀ e, e ∈ db2.terms ↔ (e ∈ db.terms ∧ e.1 ≠ j)) ∧
    (∀ e, e ∈ db2.iterms → e ∈ db.iterms) := by
  obtain ⟨hts, his, hfwd, hbwd, hbnd, hmax⟩ := hD
  unfold DB.removeTerm at h
  cases hg : kvGet db.terms j with
  | none => rw [hg] at h; cases h
  | some bt =>
    simp only [hg] at h
    rw [Except.ok.injEq] at h
    subst h
    have hjmem : (j, bt) ∈ db.terms := kvGet_mem hg
    refine ⟨⟨kvSorted_kvDel hts _, kvSorted_kvDel his _, ?_, ?_, ?_, hmax⟩,
      rfl, rfl, rfl, rfl, rfl, ?_, fun e he => (mem_kvDel_iff.mp he).1⟩
    · intro e he
      obtain ⟨he2, hne⟩ := mem_kvDel_iff.mp he
      have hbt : e.2 ≠ bt := by
        intro hcon
        have h2 := hfwd e he2
        rw [hcon] at h2
        have h3 := hfwd _ hjmem
        rw [h2] at h3
        rw [Option.some.injEq] at h3
        exact hne h3
      rw [kvGet_kvDel_ne db.iterms bt e.2 hbt]
      exact hfwd e he2
    · intro e he
      obtain ⟨he2, hne⟩ := mem_kvDel_iff.mp he
      have hj2 : e.2 ≠ j := by
        intro hcon
        have h2 := hbwd e he2
        rw [hcon, hg, Option.some.injEq] at h2
        exact hne h2.symm
      rw [kvGet_kvDel_ne db.terms j e.2 hj2]
      exact hbwd e he2
    · intro e he
      exact hbnd e (mem_kvDel_iff.mp he).1
    · intro e
      exact mem_kvDel_iff

theorem gcTerms_spec : ∀ (ids : List Nat) (db : DB), DictInv db → ids.Nodup →
    (∀ j ∈ ids, (kvGet db.terms j).isSome = true) →
    ∃ dbG, gcTerms db ids = .ok dbG ∧ DictInv dbG ∧ dbG.base = db.base ∧
      dbG.spo = db.spo ∧ dbG.osp = db.osp ∧ dbG.pos = db.pos ∧ dbG.seq = db.seq ∧
      (∀ e, e ∈ dbG.terms ↔ (e ∈ db.terms ∧
        ¬(e.1 ∈ ids ∧
          (notInIndex db.spo e.1 && notInIndex db.osp e.1 && notInIndex db.pos e.1) = true))) ∧
      (∀ e, e ∈ dbG.iterms → e ∈ db.iterms) := by
  intro ids
  induction ids with
  | nil =>
    intro db hD hnd hdom
    refine ⟨db, rfl, hD, rfl, rfl, rfl, rfl, rfl, ?_, fun e he => he⟩
    intro e
    simp
  | cons j rest ih =>
    intro db hD hnd hdom
    rw [List.nodup_cons] at hnd
    obtain ⟨hjr, hndr⟩ := hnd
    by_cases hc : (notInIndex db.spo j && notInIndex db.osp j && notInIndex db.pos j) = true
    · have hjget : (kvGet db.terms j).isSome = true := hdom j (List.mem_cons_self _ _)
      rw [Option.isSome_iff_exists] at hjget
      obtain ⟨bt, hbt⟩ := hjget
      have hrem : db.removeTerm j = .ok { db with
          terms := kvDel db.terms j, iterms := kvDel db.iterms bt } := by
        unfold DB.removeTerm
        rw [hbt]
      obtain ⟨hD2, hb2, hs2, ho2, hp2, hq2, hmem2, hsub2⟩ := removeTerm_spec hD hrem
      have hdom2 : ∀ i ∈ rest, (kvGet ({ db with
          terms := kvDel db.terms j, iterms := kvDel db.iterms bt } : DB).terms i).isSome
          = true := by
        intro i hi
        have hne : i ≠ j := fun hcon => hjr (hcon ▸ hi)
        show (kvGet (kvDel db.terms j) i).isSome = true
        rw [kvGet_kvDel_ne db.terms j i hne]
        exact hdom i (List.mem_cons.mpr (Or.inr hi))
      obtain ⟨dbG, hgc, hDG, hbG, hsG, hoG, hpG, hqG, hmemG, hsubG⟩ := ih _ hD2 hndr hdom2
      refine ⟨dbG, ?_, hDG, by rw [hbG, hb2], by rw [hsG, hs2], by rw [hoG, ho2],
        by rw [hpG, hp2], by rw [hqG, hq2], ?_, fun e he => hsub2 _ (hsubG _ he)⟩
      · rw [gcTerms]
        rw [if_pos hc, hrem]
        exact hgc
      · intro e
        rw [hmemG]
        rw [hs2, ho2, hp2]
        rw [hmem2]
        constructor
        · rintro ⟨⟨he, hnej⟩, hrest⟩
          refine ⟨he, ?_⟩
          rintro ⟨hin, hdead⟩
          rcases List.mem_cons.mp hin with rfl | hin2
          · exact hnej rfl
          · exact hrest ⟨hin2, hdead⟩
        · rintro ⟨he, hno⟩
          have hnej : e.1 ≠ j := by
            intro hcon
            exact hno ⟨List.mem_cons.mpr (Or.inl hcon), hcon ▸ hc⟩
          refine ⟨⟨he, hnej⟩, ?_⟩
          rintro ⟨hin2, hdead⟩
          exact hno ⟨List.mem_cons.mpr (Or.inr hin2), hdead⟩
    · obtain ⟨dbG, hgc, hDG, hbG, hsG, hoG, hpG, hqG, hmemG, hsubG⟩ :=
        ih db hD hndr (fun i hi => hdom i (List.mem_cons.mpr (Or.inr hi)))
      refine ⟨dbG, ?_, hDG, hbG, hsG, hoG, hpG, hqG, ?_, hsubG⟩
      · rw [gcTerms, if_neg hc]
        exact hgc
      · intro e
        rw [hmemG]
        constructor
        · rintro ⟨he, hrest⟩
          refine ⟨he, ?_⟩
          rintro ⟨hin, hdead⟩
          rcases List.mem_cons.mp hin with heq1 | hin2
          · rw [heq1] at hdead
            exact hc hdead
          · exact hrest ⟨hin2, hdead⟩
        · rintro ⟨he, hno⟩
          refine ⟨he, ?_⟩
          rintro ⟨hin2, hdead⟩
          exact hno ⟨List.mem_cons.mpr (Or.inr hin2), hdead⟩

theorem removeTriple_spec {db : DB} (hI : InvS db) {s p o : Nat} {dbf : DB}
    (hS : (kvGet db.terms s).isSome = true) (hP : (kvGet db.terms p).isSome = true)
    (hO : (kvGet db.terms o).isSome = true)
    (h : db.removeTriple s p o = .ok dbf) :
    InvS dbf ∧ dbf.base = db.base ∧
    (∀ a b c : Nat, idxHas dbf.spo a b c = true ↔
      (idxHas db.spo a b c = true ∧ ¬(a = s ∧ b = p ∧ c = o))) ∧
    (∀ e, e ∈ dbf.iterms → e ∈ db.iterms) ∧
    (∀ e, e ∈ dbf.terms → e ∈ db.terms) := by
  unfold DB.removeTriple at h
  cases hr1 : idxRemove db.spo s p o with
  | error e => rw [hr1] at h; cases h
  | ok m1 =>
  simp only [hr1] at h
  cases hr2 : idxRemove db.osp o s p with
  | error e => rw [hr2] at h; cases h
  | ok m2 =>
  simp only [hr2] at h
  cases hr3 : idxRemove db.pos p o s with
  | error e => rw [hr3] at h; cases h
  | ok m3 =>
  simp only [hr3] at h
  rw [DB.removeOrphanedTerms] at h
  have hsort1 := kvSorted_idxRemove hI.spoSorted hr1
  have hsort2 := kvSorted_idxRemove hI.ospSorted hr2
  have hsort3 := kvSorted_idxRemove hI.posSorted hr3
  have hbm1 := bmOk_idxRemove hI.spoBm hr1
  have hbm2 := bmOk_idxRemove hI.ospBm hr2
  have hbm3 := bmOk_idxRemove hI.posBm hr3
  have hiff1 : ∀ a b c : Nat, idxHas m1 a b c = true ↔
      (idxHas db.spo a b c = true ∧ ¬(a = s ∧ b = p ∧ c = o)) :=
    fun a b c => idxHas_idxRemove hr1
  have hiff2 : ∀ a b c : Nat, idxHas m2 a b c = true ↔
      (idxHas db.osp a b c = true ∧ ¬(a = o ∧ b = s ∧ c = p)) :=
    fun a b c => idxHas_idxRemove hr2
  have hiff3 : ∀ a b c : Nat, idxHas m3 a b c = true ↔
      (idxHas db.pos a b c = true ∧ ¬(a = p ∧ b = o ∧ c = s)) :=
    fun a b c => idxHas_idxRemove hr3
  have hagree1 : ∀ a b c : Nat, idxHas m1 a b c = true →
      idxHas m2 c a b = true ∧ idxHas m3 b c a = true := by
    intro a b c hx
    obtain ⟨hold, hne⟩ := (hiff1 a b c).mp hx
    obtain ⟨h1, h2⟩ := agreeSpo_forall hI hold
    constructor
    · refine (hiff2 c a b).mpr ⟨h1, ?_⟩
      rintro ⟨rfl, rfl, rfl⟩
      exact hne ⟨rfl, rfl, rfl⟩
    · refine (hiff3 b c a).mpr ⟨h2, ?_⟩
      rintro ⟨rfl, rfl, rfl⟩
      exact hne ⟨rfl, rfl, rfl⟩
  have hagree2 : ∀ a b c : Nat, idxHas m2 a b c = true → idxHas m1 b c a = true := by
    intro a b c hx
    obtain ⟨hold, hne⟩ := (hiff2 a b c).mp hx
    refine (hiff1 b c a).mpr ⟨agreeOsp_forall hI hold, ?_⟩
    rintro ⟨rfl, rfl, rfl⟩
    exact hne ⟨rfl, rfl, rfl⟩
  have hagree3 : ∀ a b c : Nat, idxHas m3 a b c = true → idxHas m1 c a b = true := by
    intro a b c hx
    obtain ⟨hold, hne⟩ := (hiff3 a b c).mp hx
    refine (hiff1 c a b).mpr ⟨agreePos_forall hI hold, ?_⟩
    rintro ⟨rfl, rfl, rfl⟩
    exact hne ⟨rfl, rfl, rfl⟩
  have hbound : ∀ x : Nat, (kvGet db.terms x).isSome = true → 1 ≤ x ∧ x ≤ MaxTerms := by
    intro x hx
    rw [Option.isSome_iff_exists] at hx
    obtain ⟨w, hw⟩ := hx
    obtain ⟨-, -, -, -, hbnd, hmax⟩ := hI.dict
    have hm := hbnd _ (kvGet_mem hw)
    exact ⟨hm.1, le_trans hm.2 hmax⟩
  have hdomU : ∀ j ∈ unique s p o,
      (kvGet ({ db with spo := m1, osp := m2, pos := m3 } : DB).terms j).isSome = true := by
    intro j hj
    show (kvGet db.terms j).isSome = true
    rcases mem_unique.mp hj with rfl | rfl | rfl
    · exact hS
    · exact hP
    · exact hO
  obtain ⟨dbG, hgc, hDG, hbG, hsG, hoG, hpG, hqG, hmemG, hsubG⟩ :=
    gcTerms_spec (unique s p o) { db with spo := m1, osp := m2, pos := m3 }
      hI.dict (unique_nodup s p o) hdomU
  rw [hgc, Except.ok.injEq] at h
  subst h
  have hSPO : dbG.spo = m1 := hsG
  have hOSP : dbG.osp = m2 := hoG
  have hPOS : dbG.pos = m3 := hpG
  have hmemT : ∀ e, e ∈ dbG.terms ↔ (e ∈ db.terms ∧
      ¬(e.1 ∈ unique s p o ∧
        (notInIndex m1 e.1 && notInIndex m2 e.1 && notInIndex m3 e.1) = true)) := hmemG
  have hsurvive : ∀ x : Nat, (kvGet db.terms x).isSome = true →
      (hasKey1 m1 x ∨ hasKey1 m2 x ∨ hasKey1 m3 x) →
      (kvGet dbG.terms x).isSome = true := by
    intro x hx hk
    have hxb := hbound x hx
    rw [Option.isSome_iff_exists] at hx
    obtain ⟨w, hw⟩ := hx
    have hmem : (x, w) ∈ dbG.terms := by
      rw [hmemT]
      refine ⟨kvGet_mem hw, ?_⟩
      rintro ⟨-, hdead⟩
      rw [Bool.and_eq_true, Bool.and_eq_true] at hdead
      obtain ⟨⟨hd1, hd2⟩, hd3⟩ := hdead
      rcases hk with hk | hk | hk
      · exact (notInIndex_eq hsort1 hxb.1 hxb.2).mp hd1 hk
      · exact (notInIndex_eq hsort2 hxb.1 hxb.2).mp hd2 hk
      · exact (notInIndex_eq hsort3 hxb.1 hxb.2).mp hd3 hk
    rw [mem_kvGet natLt_irrefl hDG.1 hmem]
    rfl
  have hocc1 : ∀ e ∈ m1, hasKey1 m1 e.1.1 ∧ hasKey1 m3 e.1.2 ∧
      ∀ c ∈ e.2, hasKey1 m2 c := by
    intro e he
    obtain ⟨⟨a, b⟩, bm⟩ := e
    have hne := (hbm1 _ he).2
    refine ⟨⟨_, he, rfl⟩, ?_, ?_⟩
    · obtain ⟨c0, hc0⟩ := List.exists_mem_of_ne_nil bm hne
      have hx : idxHas m1 a b c0 = true := (idxHas_iff_mem hsort1).mpr ⟨bm, he, hc0⟩
      obtain ⟨-, h3⟩ := hagree1 _ _ _ hx
      obtain ⟨bm3, hbm3e, -⟩ := (idxHas_iff_mem hsort3).mp h3
      exact ⟨_, hbm3e, rfl⟩
    · intro c hc
      have hx : idxHas m1 a b c = true := (idxHas_iff_mem hsort1).mpr ⟨bm, he, hc⟩
      obtain ⟨h2, -⟩ := hagree1 _ _ _ hx
      obtain ⟨bm2, hbm2e, -⟩ := (idxHas_iff_mem hsort2).mp h2
      exact ⟨_, hbm2e, rfl⟩
  have hrefs1 : ∀ e ∈ m1, (kvGet db.terms e.1.1).isSome = true ∧
      (kvGet db.terms e.1.2).isSome = true ∧
      ∀ c ∈ e.2, (kvGet db.terms c).isSome = true := by
    intro e he
    obtain ⟨bm, hg, hv, hcase⟩ := idxRemove_ok_cases hr1
    rcases hcase with ⟨-, heq⟩ | ⟨-, heq⟩
    · rw [heq] at he
      exact hI.spoRefs e (mem_kvDel_iff.mp he).1
    · rw [heq] at he
      rcases mem_kvPut he with rfl | he2
      · refine ⟨hS, hP, ?_⟩
        intro c hc
        have hcm : c ∈ bm := (List.mem_filter.mp hc).1
        exact (hI.spoRefs _ (kvGet_mem hg)).2.2 c hcm
      · exact hI.spoRefs e he2
  refine ⟨InvS.mk ?_ ?_ ?_ ?_ ?_ ?_ ?_ ?_ ?_ hDG ?_ ?_, hbG, ?_, hsubG,
    fun e he => ((hmemT e).mp he).1⟩
  · rw [hSPO]; exact hsort1
  · rw [hOSP]; exact hsort2
  · rw [hPOS]; exact hsort3
  · rw [hSPO]; exact hbm1
  · rw [hOSP]; exact hbm2
  · rw [hPOS]; exact hbm3
  · rw [hSPO, hOSP, hPOS]
    intro e he c hc
    obtain ⟨⟨a, b⟩, bm⟩ := e
    exact hagree1 a b c ((idxHas_iff_mem hsort1).mpr ⟨bm, he, hc⟩)
  · rw [hOSP, hSPO]
    intro e he c hc
    obtain ⟨⟨a, b⟩, bm⟩ := e
    exact hagree2 a b c ((idxHas_iff_mem hsort2).mpr ⟨bm, he, hc⟩)
  · rw [hPOS, hSPO]
    intro e he c hc
    obtain ⟨⟨a, b⟩, bm⟩ := e
    exact hagree3 a b c ((idxHas_iff_mem hsort3).mpr ⟨bm, he, hc⟩)
  · intro e he
    obtain ⟨hold, hno⟩ := (hmemT e).mp he
    obtain ⟨x, w⟩ := e
    have hxw : kvGet db.terms x = some w := mem_kvGet natLt_irrefl hI.dict.1 hold
    have hxs : (kvGet db.terms x).isSome = true := by rw [hxw]; rfl
    have hxb := hbound x hxs
    rw [hSPO, hOSP, hPOS]
    by_cases hu : x ∈ unique s p o
    · have hnd : ¬((notInIndex m1 x && notInIndex m2 x && notInIndex m3 x) = true) :=
        fun hdead => hno ⟨hu, hdead⟩
      by_cases hd1 : notInIndex m1 x = true
      · by_cases hd2 : notInIndex m2 x = true
        · by_cases hd3 : notInIndex m3 x = true
          · exact absurd (by rw [hd1, hd2, hd3]; rfl) hnd
          · refine Or.inr (Or.inr ?_)
            by_contra hcon
            exact hd3 ((notInIndex_eq hsort3 hxb.1 hxb.2).mpr hcon)
        · refine Or.inr (Or.inl ?_)
          by_contra hcon
          exact hd2 ((notInIndex_eq hsort2 hxb.1 hxb.2).mpr hcon)
      · refine Or.inl ?_
        by_contra hcon
        exact hd1 ((notInIndex_eq hsort1 hxb.1 hxb.2).mpr hcon)
    · rw [mem_unique] at hu
      push_neg at hu
      obtain ⟨hxs2, hxp2, hxo2⟩ := hu
      rcases hI.orphanFree _ hold with hk | hk | hk
      · exact Or.inl (hasKey1_idxRemove_keep hr1 hk hxs2)
      · exact Or.inr (Or.inl (hasKey1_idxRemove_keep hr2 hk hxo2))
      · exact Or.inr (Or.inr (hasKey1_idxRemove_keep hr3 hk hxp2))
  · intro e he
    rw [hSPO] at he
    obtain ⟨ho1, ho2, ho3⟩ := hrefs1 e he
    obtain ⟨hk1, hk2, hk3⟩ := hocc1 e he
    refine ⟨hsurvive _ ho1 (Or.inl hk1), hsurvive _ ho2 (Or.inr (Or.inr hk2)), ?_⟩
    intro c hc
    exact hsurvive _ (ho3 c hc) (Or.inr (Or.inl (hk3 c hc)))
  · intro a b c
    rw [hSPO]
    exact hiff1 a b c

theorem getID_isSome {db : DB} (hD : DictInv db) {t : Term} {tid : Nat}
    (h : db.getID t = .ok tid) : (kvGet db.terms tid).isSome = true := by
  unfold DB.getID DB.getIDb at h
  cases hg : kvGet db.iterms (encode db.base t) with
  | none => rw [hg] at h; cases h
  | some j =>
    rw [hg, Except.ok.injEq] at h
    subst h
    obtain ⟨-, -, -, hbwd, -, -⟩ := hD
    have := hbwd _ (kvGet_mem hg)
    rw [this]
    rfl

theorem InvS_deleteTx {db : DB} {tr : Triple} {dbf : DB}
    (hI : InvS db) (h : db.deleteTx tr = .ok dbf) : InvS dbf := by
  unfold DB.deleteTx at h
  cases ha : db.getID (.uri tr.subj) with
  | error e => rw [ha] at h; cases h
  | ok sID =>
  simp only [ha] at h
  cases hb : db.getID (.uri tr.pred) with
  | error e => rw [hb] at h; cases h
  | ok pID =>
  simp only [hb] at h
  cases hc : db.getID tr.obj with
  | error e => rw [hc] at h; cases h
  | ok oID =>
  simp only [hc] at h
  exact (removeTriple_spec hI (getID_isSome hI.dict ha) (getID_isSome hI.dict hb)
    (getID_isSome hI.dict hc) h).1

theorem InvS_empty (base : Bytes) : InvS (DB.empty base) := by
  refine ⟨?_, ?_, ?_, ?_, ?_, ?_, ?_, ?_, ?_, ⟨?_, ?_, ?_, ?_, ?_, ?_⟩, ?_, ?_⟩ <;>
    first
      | exact List.Pairwise.nil
      | intro e he; cases he
      | exact Nat.zero_le _

theorem InvS_Insert {db : DB} (tr : Triple) (hI : InvS db) : InvS (db.Insert tr).1 := by
  unfold DB.Insert
  cases h : db.insertTx tr with
  | error e => exact hI
  | ok db2 => exact InvS_insertTx hI h

theorem InvS_Delete {db : DB} (tr : Triple) (hI : InvS db) : InvS (db.Delete tr).1 := by
  unfold DB.Delete
  cases h : db.deleteTx tr with
  | error e => exact hI
  | ok db2 => exact InvS_deleteTx hI h

theorem InvS_Reach {db : DB} (h : Reach db) : InvS db := by
  induction h with
  | init base => exact InvS_empty base
  | insert tr _ ih => exact InvS_Insert tr ih
  | del tr _ ih => exact InvS_Delete tr ih

theorem isSome_bound {db : DB} (hD : DictInv db) {x : Nat}
    (hx : (kvGet db.terms x).isSome = true) : 1 ≤ x ∧ x ≤ MaxTerms := by
  rw [Option.isSome_iff_exists] at hx
  obtain ⟨w, hw⟩ := hx
  obtain ⟨-, -, -, -, hbnd, hmax⟩ := hD
  have hm := hbnd _ (kvGet_mem hw)
  exact ⟨hm.1, le_trans hm.2 hmax⟩

theorem ospRefs {db : DB} (hI : InvS db) :
    ∀ e ∈ db.osp, (kvGet db.terms e.1.1).isSome = true ∧
      (kvGet db.terms e.1.2).isSome = true ∧
      ∀ c ∈ e.2, (kvGet db.terms c).isSome = true := by
  intro e he
  obtain ⟨-, hne⟩ := hI.ospBm e he
  obtain ⟨c0, hc0⟩ := List.exists_mem_of_ne_nil e.2 hne
  obtain ⟨bm, hbm, hmem⟩ := (idxHas_iff_mem hI.spoSorted).mp (hI.agreeOsp e he c0 hc0)
  have hr := hI.spoRefs _ hbm
  refine ⟨hr.2.2 _ hmem, hr.1, ?_⟩
  intro c hc
  obtain ⟨bm2, hbm2, -⟩ := (idxHas_iff_mem hI.spoSorted).mp (hI.agreeOsp e he c hc)
  exact (hI.spoRefs _ hbm2).2.1

theorem posRefs {db : DB} (hI : InvS db) :
    ∀ e ∈ db.pos, (kvGet db.terms e.1.1).isSome = true ∧
      (kvGet db.terms e.1.2).isSome = true ∧
      ∀ c ∈ e.2, (kvGet db.terms c).isSome = true := by
  intro e he
  obtain ⟨-, hne⟩ := hI.posBm e he
  obtain ⟨c0, hc0⟩ := List.exists_mem_of_ne_nil e.2 hne
  obtain ⟨bm, hbm, hmem⟩ := (idxHas_iff_mem hI.spoSorted).mp (hI.agreePos e he c0 hc0)
  have hr := hI.spoRefs _ hbm
  refine ⟨hr.2.1, hr.2.2 _ hmem, ?_⟩
  intro c hc
  obtain ⟨bm2, hbm2, -⟩ := (idxHas_iff_mem hI.spoSorted).mp (hI.agreePos e he c hc)
  exact (hI.spoRefs _ hbm2).1

/-- C10: in every database state reachable by Insert and Delete from an empty
database, every term id stored in the dictionary (either direction) or
referenced by an index key or bitmap lies between 1 and MaxTerms = 2^32 - 1;
consequently for every id in that range the uint32 predecessor arithmetic of
the cursor seek computes id - 1 without wrapping below zero, and notInIndex
answers true exactly when no key of the bucket starts with the id. -/
theorem C10_ids_positive_seek_exact {db : DB} (h : Reach db) :
    (∀ e ∈ db.terms, 1 ≤ e.1 ∧ e.1 ≤ MaxTerms) ∧
    (∀ e ∈ db.iterms, 1 ≤ e.2 ∧ e.2 ≤ MaxTerms) ∧
    (∀ e ∈ db.spo, (1 ≤ e.1.1 ∧ 1 ≤ e.1.2) ∧ ∀ c ∈ e.2, 1 ≤ c) ∧
    (∀ e ∈ db.osp, (1 ≤ e.1.1 ∧ 1 ≤ e.1.2) ∧ ∀ c ∈ e.2, 1 ≤ c) ∧
    (∀ e ∈ db.pos, (1 ≤ e.1.1 ∧ 1 ≤ e.1.2) ∧ ∀ c ∈ e.2, 1 ≤ c) ∧
    (∀ id : Nat, 1 ≤ id → id ≤ MaxTerms →
      (id + 4294967295) % 4294967296 = id - 1 ∧
      (notInIndex db.spo id = true ↔ ¬ hasKey1 db.spo id) ∧
      (notInIndex db.osp id = true ↔ ¬ hasKey1 db.osp id) ∧
      (notInIndex db.pos id = true ↔ ¬ hasKey1 db.pos id)) := by
  have hI := InvS_Reach h
  refine ⟨?_, ?_, ?_, ?_, ?_, ?_⟩
  · intro e he
    obtain ⟨-, -, -, -, hbnd, hmax⟩ := hI.dict
    have hm := hbnd _ he
    exact ⟨hm.1, le_trans hm.2 hmax⟩
  · intro e he
    obtain ⟨-, -, -, hbwd, -, -⟩ := hI.dict
    have hx : (kvGet db.terms e.2).isSome = true := by
      rw [hbwd _ he]; rfl
    exact isSome_bound hI.dict hx
  · intro e he
    have hr := hI.spoRefs e he
    exact ⟨⟨(isSome_bound hI.dict hr.1).1, (isSome_bound hI.dict hr.2.1).1⟩,
      fun c hc => (isSome_bound hI.dict (hr.2.2 c hc)).1⟩
  · intro e he
    have hr := ospRefs hI e he
    exact ⟨⟨(isSome_bound hI.dict hr.1).1, (isSome_bound hI.dict hr.2.1).1⟩,
      fun c hc => (isSome_bound hI.dict (hr.2.2 c hc)).1⟩
  · intro e he
    have hr := posRefs hI e he
    exact ⟨⟨(isSome_bound hI.dict hr.1).1, (isSome_bound hI.dict hr.2.1).1⟩,
      fun c hc => (isSome_bound hI.dict (hr.2.2 c hc)).1⟩
  · intro id h1 h2
    refine ⟨by unfold MaxTerms at h2; omega, ?_, ?_, ?_⟩
    · exact notInIndex_eq hI.spoSorted h1 h2
    · exact notInIndex_eq hI.ospSorted h1 h2
    · exact notInIndex_eq hI.posSorted h1 h2

theorem C10_ids_positive_seek_exact_witness :
    (∀ e ∈ wDB1.terms, 1 ≤ e.1 ∧ e.1 ≤ MaxTerms) ∧
    (∀ e ∈ wDB1.iterms, 1 ≤ e.2 ∧ e.2 ≤ MaxTerms) ∧
    (∀ e ∈ wDB1.spo, (1 ≤ e.1.1 ∧ 1 ≤ e.1.2) ∧ ∀ c ∈ e.2, 1 ≤ c) ∧
    (∀ e ∈ wDB1.osp, (1 ≤ e.1.1 ∧ 1 ≤ e.1.2) ∧ ∀ c ∈ e.2, 1 ≤ c) ∧
    (∀ e ∈ wDB1.pos, (1 ≤ e.1.1 ∧ 1 ≤ e.1.2) ∧ ∀ c ∈ e.2, 1 ≤ c) ∧
    (∀ id : Nat, 1 ≤ id → id ≤ MaxTerms →
      (id + 4294967295) % 4294967296 = id - 1 ∧
      (notInIndex wDB1.spo id = true ↔ ¬ hasKey1 wDB1.spo id) ∧
      (notInIndex wDB1.osp id = true ↔ ¬ hasKey1 wDB1.osp id) ∧
      (notInIndex wDB1.pos id = true ↔ ¬ hasKey1 wDB1.pos id)) :=
  C10_ids_positive_seek_exact (Reach.insert wTrA (Reach.init wBase))

theorem addTerm_terms_keep {db : DB} {t : Term} {tid : Nat} {db2 : DB}
    (hD : DictInv db) (h : db.addTerm t = .ok (tid, db2)) :
    ∀ x w, kvGet db.terms x = some w → kvGet db2.terms x = some w := by
  intro x w hx
  rcases addTerm_cases h with ⟨heq, -⟩ | ⟨-, hid, -, heq⟩
  · rw [← heq]
    exact hx
  · obtain ⟨-, -, -, -, hbnd, -⟩ := hD
    have hxb := (hbnd _ (kvGet_mem hx)).2
    have hne : x ≠ tid := by omega
    subst heq
    show kvGet (kvPut natLt db.terms tid (encode db.base t)) x = some w
    rw [kvGet_kvPut_ne _ _ _ _ _ hne]
    exact hx

theorem Insert_base {db : DB} (tr : Triple) : (db.Insert tr).1.base = db.base := by
  unfold DB.Insert
  cases h : db.insertTx tr with
  | error e => rfl
  | ok db2 => exact (insertTx_ok_facts h).1

theorem Delete_base {db : DB} (hI : InvS db) (tr : Triple) :
    (db.Delete tr).1.base = db.base := by
  unfold DB.Delete
  cases h : db.deleteTx tr with
  | error e => rfl
  | ok db2 =>
    unfold DB.deleteTx at h
    cases ha : db.getID (.uri tr.subj) with
    | error e => rw [ha] at h; cases h
    | ok sID =>
    simp only [ha] at h
    cases hb : db.getID (.uri tr.pred) with
    | error e => rw [hb] at h; cases h
    | ok pID =>
    simp only [hb] at h
    cases hc : db.getID tr.obj with
    | error e => rw [hc] at h; cases h
    | ok oID =>
    simp only [hc] at h
    exact (removeTriple_spec hI (getID_isSome hI.dict ha) (getID_isSome hI.dict hb)
      (getID_isSome hI.dict hc) h).2.1

theorem storedBytes_insertTx {db : DB} (hI : InvS db) {tr : Triple} {dbf : DB}
    (h : db.insertTx tr = .ok dbf) {bs bp bo : Bytes}
    (hst : storedBytes dbf bs bp bo) :
    storedBytes db bs bp bo ∨
      (bs = encode db.base (.uri tr.subj) ∧ bp = encode db.base (.uri tr.pred) ∧
       bo = encode db.base tr.obj) := by
  unfold DB.insertTx at h
  cases ha : db.addTerm (.uri tr.subj) with
  | error e => simp [ha] at h
  | ok r1 =>
  obtain ⟨sID, db1⟩ := r1
  simp only [ha] at h
  cases hb : db1.addTerm (.uri tr.pred) with
  | error e => simp [hb] at h
  | ok r2 =>
  obtain ⟨pID, db2⟩ := r2
  simp only [hb] at h
  cases hc : db2.addTerm tr.obj with
  | error e => simp [hc] at h
  | ok r3 =>
  obtain ⟨oID, db3⟩ := r3
  simp only [hc] at h
  obtain ⟨hD1, hbase1, hspo1, hosp1, hpos1, -, -, -, hg1, -, -, -, -⟩ :=
    addTerm_dict hI.dict ha
  obtain ⟨hD2, hbase2, hspo2, hosp2, hpos2, -, -, -, hg2, -, -, hi2, -⟩ :=
    addTerm_dict hD1 hb
  obtain ⟨hD3, hbase3, hspo3, hosp3, hpos3, -, -, -, hg3, -, -, hi3, -⟩ :=
    addTerm_dict hD2 hc
  have hk1 := addTerm_terms_keep hI.dict ha
  have hk2 := addTerm_terms_keep hD1 hb
  have hk3 := addTerm_terms_keep hD2 hc
  have hgS : kvGet db3.iterms (encode db.base (.uri tr.subj)) = some sID :=
    hi3 _ _ (hi2 _ _ hg1)
  have hgP : kvGet db3.iterms (encode db.base (.uri tr.pred)) = some pID := by
    rw [hbase1] at hg2
    exact hi3 _ _ hg2
  have hgO : kvGet db3.iterms (encode db.base tr.obj) = some oID := by
    rw [hbase2, hbase1] at hg3
    exact hg3
  obtain ⟨-, -, -, hbwd3, -, -⟩ := hD3
  have htS : kvGet db3.terms sID = some (encode db.base (.uri tr.subj)) :=
    hbwd3 _ (kvGet_mem hgS)
  have htP : kvGet db3.terms pID = some (encode db.base (.uri tr.pred)) :=
    hbwd3 _ (kvGet_mem hgP)
  have htO : kvGet db3.terms oID = some (encode db.base tr.obj) :=
    hbwd3 _ (kvGet_mem hgO)
  have hOsp3 : ∀ a b c : Nat, idxHas db3.osp a b c = true →
      idxHas db3.spo b c a = true := by
    intro a b c hx
    rw [hosp3, hosp2, hosp1] at hx
    rw [hspo3, hspo2, hspo1]
    exact agreeOsp_forall hI hx
  have hPos3 : ∀ a b c : Nat, idxHas db3.pos a b c = true →
      idxHas db3.spo c a b = true := by
    intro a b c hx
    rw [hpos3, hpos2, hpos1] at hx
    rw [hspo3, hspo2, hspo1]
    exact agreePos_forall hI hx
  obtain ⟨s, p, o, hhas, hts, htp, hto⟩ := hst
  obtain ⟨-, hterms4, -, -, -⟩ := storeTriple_ok h
  rw [hterms4] at hts htp hto
  have hOld : idxHas db3.spo s p o = true → storedBytes db bs bp bo := by
    intro hx
    rw [hspo3, hspo2, hspo1] at hx
    obtain ⟨bm, hbm, hcm⟩ := (idxHas_iff_mem hI.spoSorted).mp hx
    have hr := hI.spoRefs _ hbm
    obtain ⟨ws, hws⟩ := Option.isSome_iff_exists.mp hr.1
    obtain ⟨wp, hwp⟩ := Option.isSome_iff_exists.mp hr.2.1
    obtain ⟨wo, hwo⟩ := Option.isSome_iff_exists.mp (hr.2.2 _ hcm)
    have hws3 : kvGet db3.terms s = some ws := hk3 _ _ (hk2 _ _ (hk1 _ _ hws))
    have hwp3 : kvGet db3.terms p = some wp := hk3 _ _ (hk2 _ _ (hk1 _ _ hwp))
    have hwo3 : kvGet db3.terms o = some wo := hk3 _ _ (hk2 _ _ (hk1 _ _ hwo))
    rw [hws3, Option.some.injEq] at hts
    rw [hwp3, Option.some.injEq] at htp
    rw [hwo3, Option.some.injEq] at hto
    subst hts
    subst htp
    subst hto
    exact ⟨s, p, o, hx, hws, hwp, hwo⟩
  rcases storeTriple_under_inv hOsp3 hPos3 h with ⟨heq, -⟩ | ⟨-, heq⟩
  · rw [heq] at hhas
    exact Or.inl (hOld hhas)
  · rw [heq] at hhas
    rcases idxHas_kvPut_bmAdd.mp hhas with hx | ⟨h1, h2, h3⟩
    · exact Or.inl (hOld hx)
    · subst h1
      subst h2
      subst h3
      rw [htS, Option.some.injEq] at hts
      rw [htP, Option.some.injEq] at htp
      rw [htO, Option.some.injEq] at hto
      exact Or.inr ⟨hts.symm, htp.symm, hto.symm⟩

theorem getID_error_none {db : DB} {t : Term} {e : Err} (h : db.getID t = .error e) :
    kvGet db.iterms (encode db.base t) = none := by
  unfold DB.getID DB.getIDb at h
  cases hg : kvGet db.iterms (encode db.base t) with
  | none => rfl
  | some i => rw [hg] at h; cases h

theorem getID_ok_get {db : DB} {t : Term} {tid : Nat} (h : db.getID t = .ok tid) :
    kvGet db.iterms (encode db.base t) = some tid := by
  unfold DB.getID DB.getIDb at h
  cases hg : kvGet db.iterms (encode db.base t) with
  | none => rw [hg] at h; cases h
  | some i =>
    rw [hg] at h
    rw [Except.ok.injEq] at h
    rw [h]

theorem removeTriple_err {db : DB} (hI : InvS db) {s p o : Nat}
    (hS : (kvGet db.terms s).isSome = true) (hP : (kvGet db.terms p).isSome = true)
    (hO : (kvGet db.terms o).isSome = true)
    {e : Err} (h : db.removeTriple s p o = .error e) :
    idxHas db.spo s p o = false := by
  unfold DB.removeTriple at h
  cases hr1 : idxRemove db.spo s p o with
  | error e1 => exact (idxRemove_err hr1).2
  | ok m1 =>
  simp only [hr1] at h
  obtain ⟨bm, hg, hv, -⟩ := idxRemove_ok_cases hr1
  have hhas : idxHas db.spo s p o = true := by
    rw [idxHas, hg]
    exact List.elem_iff.mpr hv
  obtain ⟨hosp, hpos⟩ := agreeSpo_forall hI hhas
  cases hr2 : idxRemove db.osp o s p with
  | error e2 =>
    have h2 := (idxRemove_err hr2).2
    rw [hosp] at h2
    cases h2
  | ok m2 =>
  simp only [hr2] at h
  cases hr3 : idxRemove db.pos p o s with
  | error e3 =>
    have h3 := (idxRemove_err hr3).2
    rw [hpos] at h3
    cases h3
  | ok m3 =>
  simp only [hr3] at h
  rw [DB.removeOrphanedTerms] at h
  have hdomU : ∀ j ∈ unique s p o,
      (kvGet ({ db with spo := m1, osp := m2, pos := m3 } : DB).terms j).isSome = true := by
    intro j hj
    show (kvGet db.terms j).isSome = true
    rcases mem_unique.mp hj with rfl | rfl | rfl
    · exact hS
    · exact hP
    · exact hO
  obtain ⟨dbG, hgc, -⟩ :=
    gcTerms_spec (unique s p o) { db with spo := m1, osp := m2, pos := m3 }
      hI.dict (unique_nodup s p o) hdomU
  rw [hgc] at h
  cases h

theorem storedBytes_Delete {db : DB} (hI : InvS db) (tr : Triple) {bs bp bo : Bytes}
    (hst : storedBytes (db.Delete tr).1 bs bp bo) :
    storedBytes db bs bp bo ∧
      ¬(bs = encode db.base (.uri tr.subj) ∧ bp = encode db.base (.uri tr.pred) ∧
        bo = encode db.base tr.obj) := by
  obtain ⟨-, -, hfwd, -, -, -⟩ := hI.dict
  cases hD : db.deleteTx tr with
  | error e =>
    have hsame : (db.Delete tr).1 = db := by
      unfold DB.Delete
      rw [hD]
    rw [hsame] at hst
    refine ⟨hst, ?_⟩
    rintro ⟨rfl, rfl, rfl⟩
    obtain ⟨s, p, o, hhas, hts, htp, hto⟩ := hst
    have hiS : kvGet db.iterms (encode db.base (.uri tr.subj)) = some s :=
      hfwd _ (kvGet_mem hts)
    have hiP : kvGet db.iterms (encode db.base (.uri tr.pred)) = some p :=
      hfwd _ (kvGet_mem htp)
    have hiO : kvGet db.iterms (encode db.base tr.obj) = some o :=
      hfwd _ (kvGet_mem hto)
    unfold DB.deleteTx at hD
    cases ha : db.getID (.uri tr.subj) with
    | error e1 =>
      rw [getID_error_none ha] at hiS
      cases hiS
    | ok sID =>
    simp only [ha] at hD
    cases hb : db.getID (.uri tr.pred) with
    | error e1 =>
      rw [getID_error_none hb] at hiP
      cases hiP
    | ok pID =>
    simp only [hb] at hD
    cases hc : db.getID tr.obj with
    | error e1 =>
      rw [getID_error_none hc] at hiO
      cases hiO
    | ok oID =>
    simp only [hc] at hD
    have hseq : s = sID := by
      rw [getID_ok_get ha, Option.some.injEq] at hiS
      exact hiS.symm
    have hpeq : p = pID := by
      rw [getID_ok_get hb, Option.some.injEq] at hiP
      exact hiP.symm
    have hoeq : o = oID := by
      rw [getID_ok_get hc, Option.some.injEq] at hiO
      exact hiO.symm
    subst hseq
    subst hpeq
    subst hoeq
    have hnone := removeTriple_err hI (getID_isSome hI.dict ha) (getID_isSome hI.dict hb)
      (getID_isSome hI.dict hc) hD
    rw [hhas] at hnone
    cases hnone
  | ok dbf =>
    have hsame : (db.Delete tr).1 = dbf := by
      unfold DB.Delete
      rw [hD]
    rw [hsame] at hst
    unfold DB.deleteTx at hD
    cases ha : db.getID (.uri tr.subj) with
    | error e1 => rw [ha] at hD; cases hD
    | ok sID =>
    simp only [ha] at hD
    cases hb : db.getID (.uri tr.pred) with
    | error e1 => rw [hb] at hD; cases hD
    | ok pID =>
    simp only [hb] at hD
    cases hc : db.getID tr.obj with
    | error e1 => rw [hc] at hD; cases hD
    | ok oID =>
    simp only [hc] at hD
    obtain ⟨-, -, hiff, -, hsubT⟩ :=
      removeTriple_spec hI (getID_isSome hI.dict ha) (getID_isSome hI.dict hb)
        (getID_isSome hI.dict hc) hD
    obtain ⟨s, p, o, hhas, hts, htp, hto⟩ := hst
    have hts0 : kvGet db.terms s = some bs :=
      mem_kvGet natLt_irrefl hI.dict.1 (hsubT _ (kvGet_mem hts))
    have htp0 : kvGet db.terms p = some bp :=
      mem_kvGet natLt_irrefl hI.dict.1 (hsubT _ (kvGet_mem htp))
    have hto0 : kvGet db.terms o = some bo :=
      mem_kvGet natLt_irrefl hI.dict.1 (hsubT _ (kvGet_mem hto))
    obtain ⟨hold, hne⟩ := (hiff s p o).mp hhas
    refine ⟨⟨s, p, o, hold, hts0, htp0, hto0⟩, ?_⟩
    rintro ⟨rfl, rfl, rfl⟩
    have h1 : s = sID := by
      have hx := hfwd _ (kvGet_mem hts0)
      rw [getID_ok_get ha, Option.some.injEq] at hx
      exact hx.symm
    have h2 : p = pID := by
      have hx := hfwd _ (kvGet_mem htp0)
      rw [getID_ok_get hb, Option.some.injEq] at hx
      exact hx.symm
    have h3 : o = oID := by
      have hx := hfwd _ (kvGet_mem hto0)
      rw [getID_ok_get hc, Option.some.injEq] at hx
      exact hx.symm
    exact hne ⟨h1, h2, h3⟩

theorem foldInsert_cons (db : DB) (t : Triple) (rest : List Triple) :
    foldInsert db (t :: rest) = foldInsert (db.Insert t).1 rest := rfl

theorem foldDelete_cons (db : DB) (t : Triple) (rest : List Triple) :
    foldDelete db (t :: rest) = foldDelete (db.Delete t).1 rest := rfl

theorem InvS_foldInsert : ∀ (ts : List Triple) (db : DB), InvS db →
    InvS (foldInsert db ts) := by
  intro ts
  induction ts with
  | nil => exact fun db hI => hI
  | cons t rest ih =>
    intro db hI
    rw [foldInsert_cons]
    exact ih _ (InvS_Insert t hI)

theorem InvS_foldDelete : ∀ (ts : List Triple) (db : DB), InvS db →
    InvS (foldDelete db ts) := by
  intro ts
  induction ts with
  | nil => exact fun db hI => hI
  | cons t rest ih =>
    intro db hI
    rw [foldDelete_cons]
    exact ih _ (InvS_Delete t hI)

theorem foldInsert_base : ∀ (ts : List Triple) (db : DB),
    (foldInsert db ts).base = db.base := by
  intro ts
  induction ts with
  | nil => exact fun db => rfl
  | cons t rest ih =>
    intro db
    rw [foldInsert_cons, ih, Insert_base]

theorem foldDelete_base : ∀ (ts : List Triple) (db : DB), InvS db →
    (foldDelete db ts).base = db.base := by
  intro ts
  induction ts with
  | nil => exact fun db _ => rfl
  | cons t rest ih =>
    intro db hI
    rw [foldDelete_cons, ih _ (InvS_Delete t hI), Delete_base hI]

theorem storedBytes_Insert {db : DB} (hI : InvS db) (tr : Triple) {bs bp bo : Bytes}
    (hst : storedBytes (db.Insert tr).1 bs bp bo) :
    storedBytes db bs bp bo ∨
      (bs = encode db.base (.uri tr.subj) ∧ bp = encode db.base (.uri tr.pred) ∧
       bo = encode db.base tr.obj) := by
  cases h : db.insertTx tr with
  | error e =>
    have hsame : (db.Insert tr).1 = db := by
      unfold DB.Insert
      rw [h]
    rw [hsame] at hst
    exact Or.inl hst
  | ok dbf =>
    have hsame : (db.Insert tr).1 = dbf := by
      unfold DB.Insert
      rw [h]
    rw [hsame] at hst
    exact storedBytes_insertTx hI h hst

theorem storedBytes_foldInsert : ∀ (ts : List Triple) (db : DB), InvS db →
    ∀ bs bp bo : Bytes, storedBytes (foldInsert db ts) bs bp bo →
    storedBytes db bs bp bo ∨
      ∃ tr ∈ ts, bs = encode db.base (.uri tr.subj) ∧
        bp = encode db.base (.uri tr.pred) ∧ bo = encode db.base tr.obj := by
  intro ts
  induction ts with
  | nil => exact fun db _ bs bp bo hst => Or.inl hst
  | cons t rest ih =>
    intro db hI bs bp bo hst
    rw [foldInsert_cons] at hst
    rcases ih _ (InvS_Insert t hI) bs bp bo hst with hst2 | ⟨tr, htr, henc⟩
    · rcases storedBytes_Insert hI t hst2 with hst3 | henc
      · exact Or.inl hst3
      · exact Or.inr ⟨t, List.mem_cons_self t rest, henc⟩
    · rw [Insert_base] at henc
      exact Or.inr ⟨tr, List.mem_cons_of_mem t htr, henc⟩

theorem storedBytes_empty (base : Bytes) (bs bp bo : Bytes) :
    ¬ storedBytes (DB.empty base) bs bp bo := by
  rintro ⟨s, p, o, hhas, -⟩
  rw [idxHas] at hhas
  cases hhas

theorem storedBytes_foldDelete : ∀ (ts : List Triple) (db : DB), InvS db →
    ∀ bs bp bo : Bytes, storedBytes (foldDelete db ts) bs bp bo →
    storedBytes db bs bp bo := by
  intro ts
  induction ts with
  | nil => exact fun db _ bs bp bo hst => hst
  | cons t rest ih =>
    intro db hI bs bp bo hst
    rw [foldDelete_cons] at hst
    exact (storedBytes_Delete hI t (ih _ (InvS_Delete t hI) bs bp bo hst)).1

theorem foldDelete_kills : ∀ (ts : List Triple) (db : DB), InvS db →
    ∀ tr ∈ ts, ¬ storedBytes (foldDelete db ts) (encode db.base (.uri tr.subj))
      (encode db.base (.uri tr.pred)) (encode db.base tr.obj) := by
  intro ts
  induction ts with
  | nil =>
    intro db _ tr htr
    cases htr
  | cons t rest ih =>
    intro db hI tr htr hst
    rw [foldDelete_cons] at hst
    rcases List.mem_cons.mp htr with rfl | htr2
    · have hst2 := storedBytes_foldDelete rest _ (InvS_Delete tr hI) _ _ _ hst
      exact (storedBytes_Delete hI tr hst2).2 ⟨rfl, rfl, rfl⟩
    · have hb : (db.Delete t).1.base = db.base := Delete_base hI t
      rw [← hb] at hst
      exact ih _ (InvS_Delete t hI) tr htr2 hst

theorem stored_of_idxHas {db : DB} (hI : InvS db) {a b c : Nat}
    (h : idxHas db.spo a b c = true) : ∃ bs bp bo : Bytes, storedBytes db bs bp bo := by
  obtain ⟨bm, hbm, hcm⟩ := (idxHas_iff_mem hI.spoSorted).mp h
  have hr := hI.spoRefs _ hbm
  obtain ⟨ws, hws⟩ := Option.isSome_iff_exists.mp hr.1
  obtain ⟨wp, hwp⟩ := Option.isSome_iff_exists.mp hr.2.1
  obtain ⟨wo, hwo⟩ := Option.isSome_iff_exists.mp (hr.2.2 _ hcm)
  exact ⟨ws, wp, wo, a, b, c, h, hws, hwp, hwo⟩

theorem terms_nil_of_unstored {db : DB} (hI : InvS db)
    (h : ∀ bs bp bo : Bytes, ¬ storedBytes db bs bp bo) : db.terms = [] := by
  cases hc : db.terms with
  | nil => rfl
  | cons e rest =>
    exfalso
    have he : e ∈ db.terms := by
      rw [hc]
      exact List.mem_cons_self _ _
    have hstored : ∃ bs bp bo : Bytes, storedBytes db bs bp bo := by
      rcases hI.orphanFree _ he with ⟨en, hen, -⟩ | ⟨en, hen, -⟩ | ⟨en, hen, -⟩
      · obtain ⟨c0, hc0⟩ := List.exists_mem_of_ne_nil en.2 (hI.spoBm _ hen).2
        exact stored_of_idxHas hI ((idxHas_iff_mem hI.spoSorted).mpr ⟨en.2, hen, hc0⟩)
      · obtain ⟨c0, hc0⟩ := List.exists_mem_of_ne_nil en.2 (hI.ospBm _ hen).2
        exact stored_of_idxHas hI
          (agreeOsp_forall hI ((idxHas_iff_mem hI.ospSorted).mpr ⟨en.2, hen, hc0⟩))
      · obtain ⟨c0, hc0⟩ := List.exists_mem_of_ne_nil en.2 (hI.posBm _ hen).2
        exact stored_of_idxHas hI
          (agreePos_forall hI ((idxHas_iff_mem hI.posSorted).mpr ⟨en.2, hen, hc0⟩))
    obtain ⟨bs, bp, bo, hst⟩ := hstored
    exact h bs bp bo hst

/-- C3: starting from an empty database, after any finite sequence of Insert
operations followed by the deletion of every inserted triple, the Stats term
count is zero: the orphan garbage collection run at the end of every Delete
leaves no dictionary entry behind once all triples are gone. -/
theorem C3_delete_all_inserted_empties_dictionary (base : Bytes) (ts : List Triple) :
    ((foldDelete (foldInsert (DB.empty base) ts) ts).Stats).NumTerms = 0 := by
  have hII : InvS (foldInsert (DB.empty base) ts) :=
    InvS_foldInsert ts _ (InvS_empty base)
  have hIF : InvS (foldDelete (foldInsert (DB.empty base) ts) ts) :=
    InvS_foldDelete ts _ hII
  have hbI : (foldInsert (DB.empty base) ts).base = base := foldInsert_base ts _
  have hempty : ∀ bs bp bo : Bytes,
      ¬ storedBytes (foldDelete (foldInsert (DB.empty base) ts) ts) bs bp bo := by
    intro bs bp bo hst
    have hstI := storedBytes_foldDelete ts _ hII bs bp bo hst
    rcases storedBytes_foldInsert ts _ (InvS_empty base) bs bp bo hstI with
      hst0 | ⟨tr, htr, h1, h2, h3⟩
    · exact storedBytes_empty base bs bp bo hst0
    · have hkill := foldDelete_kills ts _ hII tr htr
      rw [hbI] at hkill
      have hbE : (DB.empty base).base = base := rfl
      rw [hbE] at h1 h2 h3
      rw [h1, h2, h3] at hst
      exact hkill hst
  have hnil := terms_nil_of_unstored hIF hempty
  show (foldDelete (foldInsert (DB.empty base) ts) ts).terms.length = 0
  rw [hnil]
  rfl

theorem gInsert_ne_nil (g : List Triple) (tr : Triple) : gInsert g tr ≠ [] := by
  rw [gInsert]
  by_cases h : tr ∈ g
  · rw [if_pos h]
    intro hcon
    rw [hcon] at h
    cases h
  · rw [if_neg h]
    intro hcon
    cases g <;> cases hcon

theorem importLoop_count : ∀ (evs : List (Option Triple)) (batchSize : Nat) (db : DB)
    (g : List Triple) (c i : Nat) (dbf : DB) (cf : Nat),
    (g = [] → i = 0) →
    importLoop batchSize evs db g c i = (dbf, cf, none) →
    cf = c + i + (evs.filter (fun ev => ev.isSome)).length := by
  intro evs
  induction evs with
  | nil =>
    intro batchSize db g c i dbf cf hgi h
    rw [importLoop] at h
    by_cases hg : g.length > 0
    · rw [if_pos hg] at h
      cases hig : importGraph db g with
      | error e =>
        rw [hig] at h
        rw [Prod.mk.injEq, Prod.mk.injEq] at h
        cases h.2.2
      | ok db2 =>
        rw [hig] at h
        rw [Prod.mk.injEq, Prod.mk.injEq] at h
        rw [← h.2.1]
        rfl
    · rw [if_neg hg] at h
      rw [Prod.mk.injEq, Prod.mk.injEq] at h
      have hg0 : g = [] := by
        cases g with
        | nil => rfl
        | cons a b => exact absurd (by simp) hg
      rw [← h.2.1, hgi hg0]
      rfl
  | cons ev rest ih =>
    intro batchSize db g c i dbf cf hgi h
    cases ev with
    | none =>
      rw [importLoop] at h
      have := ih batchSize db g c i dbf cf hgi h
      simpa using this
    | some tr =>
      rw [importLoop] at h
      by_cases hb : i + 1 = batchSize
      · rw [if_pos hb] at h
        cases hig : importGraph db (gInsert g tr) with
        | error e =>
          rw [hig] at h
          rw [Prod.mk.injEq, Prod.mk.injEq] at h
          cases h.2.2
        | ok db2 =>
          rw [hig] at h
          have := ih batchSize db2 [] (c + (i + 1)) 0 dbf cf (fun _ => rfl) h
          simp only [List.filter, Option.isSome, List.length_cons] at this ⊢
          omega
      · rw [if_neg hb] at h
        have := ih batchSize db (gInsert g tr) c (i + 1) dbf cf
          (fun hcon => absurd hcon (gInsert_ne_nil g tr)) h
        simp only [List.filter, Option.isSome, List.length_cons] at this ⊢
        omega

/-- C8 (amended): when Import returns without error, the returned count is
the number of successfully parsed triples in the stream: the final partial
batch committed after EOF IS added to the running total (db.go line 386
`c += i`), contrary to the claim. -/
theorem C8_import_count {db : DB} {batchSize : Nat} {evs : List (Option Triple)}
    {dbf : DB} {c : Nat} (h : db.Import batchSize evs = (dbf, c, none)) :
    c = (evs.filter (fun ev => ev.isSome)).length := by
  have := importLoop_count evs batchSize db [] 0 0 dbf c (fun _ => rfl) h
  omega

/-- C8 (counterexample): a single parsed triple with batch size 2 never
fills a batch, yet Import returns count 1, not 0: the partial batch is
committed (the triple is afterwards stored) and counted. -/
theorem C8_partial_batch_is_counted :
    (DB.Import (DB.empty wBase) 2 [some wTrA]).2.1 = 1 ∧
    ((DB.Import (DB.empty wBase) 2 [some wTrA]).1.Has wTrA).1 = true ∧
    (1 : Nat) ≠ 0 := by
  refine ⟨?_, ?_, by decide⟩ <;> rfl

theorem C8_import_count_witness :
    (2 : Nat) = (([some wTrA, none, some wTrB] :
      List (Option Triple)).filter (fun ev => ev.isSome)).length :=
  @C8_import_count (DB.empty wBase) 2 [some wTrA, none, some wTrB]
    (DB.Import (DB.empty wBase) 2 [some wTrA, none, some wTrB]).1 2 rfl

/-- C9 (counterexample): the dump of the single-triple example database is
not the claimed stream: after the @base directive the code does not write a
newline of its own; the directive line is only closed by the statement
terminator written for the first SPO record. -/
theorem C9_dump_counterexample :
    wDB9.Dump ≠ (strBytes "@base <http://ex/>\n<a> <p> \"x\"@en .\n", none) := by
  decide

/-- C9 (amended): the dump of the single-triple example database is exactly
the stream with a ` .` closing the @base directive: the first SPO record's
end-previous-statement write emits ` .\n` after `@base <http://ex/>`, and
the last statement ends with ` .\n`. -/
theorem C9_dump_exact :
    wDB9.Dump = (strBytes "@base <http://ex/> .\n<a> <p> \"x\"@en .\n", none) := by
  decide

theorem uri_roundtrip (base u : Bytes) :
    decode base (encode base (.uri u)) = .ok (.uri u) := by
  by_cases hp : base.isPrefixOf u
  · have hpre : base <+: u := List.isPrefixOf_iff_prefix.mp hp
    simp only [encode, if_pos hp, decode]
    norm_num
    exact List.prefix_iff_eq_append.mp hpre
  · simp only [encode, if_neg hp, decode]
    norm_num

theorem mem_gInsert {g : List Triple} {tr a : Triple} :
    a ∈ gInsert g tr ↔ (a ∈ g ∨ a = tr) := by
  rw [gInsert]
  by_cases h : tr ∈ g
  · rw [if_pos h]
    constructor
    · exact fun h2 => Or.inl h2
    · rintro (h2 | rfl)
      · exact h2
      · exact h
  · rw [if_neg h]
    simp

theorem good_getTerm {db : DB}
    (hgood : ∀ e ∈ db.terms, (decode db.base e.2).map (encode db.base) = .ok e.2)
    {x : Nat} (hx : (kvGet db.terms x).isSome = true) :
    ∃ t : Term, ∃ bt : Bytes, kvGet db.terms x = some bt ∧
      decode db.base bt = .ok t ∧ encode db.base t = bt ∧ db.getTerm x = .ok t := by
  rw [Option.isSome_iff_exists] at hx
  obtain ⟨bt, hbt⟩ := hx
  have hg := hgood _ (kvGet_mem hbt)
  cases hd : decode db.base bt with
  | error e =>
    rw [hd] at hg
    cases hg
  | ok t =>
    rw [hd, Except.map, Except.ok.injEq] at hg
    refine ⟨t, bt, hbt, hd, hg, ?_⟩
    unfold DB.getTerm
    rw [hbt]
    exact hd

theorem uriId_getTerm {db : DB}
    (hgood : ∀ e ∈ db.terms, (decode db.base e.2).map (encode db.base) = .ok e.2)
    {x : Nat} (hu : isUriId db x = true) :
    ∃ u : Bytes, ∃ bt : Bytes, kvGet db.terms x = some bt ∧
      decode db.base bt = .ok (.uri u) ∧ encode db.base (.uri u) = bt ∧
      db.getTerm x = .ok (.uri u) := by
  cases hbt : kvGet db.terms x with
  | none =>
    rw [isUriId] at hu
    simp only [hbt] at hu
    cases hu
  | some bt =>
    rw [isUriId] at hu
    simp only [hbt] at hu
    obtain ⟨t, bt2, hbt2, hd, he, hgt⟩ := @good_getTerm db hgood x (by rw [hbt]; rfl)
    rw [hbt, Option.some.injEq] at hbt2
    subst hbt2
    simp only [hd] at hu
    cases t with
    | uri u => exact ⟨u, bt, rfl, hd, he, hgt⟩
    | lit v l d => cases hu

theorem getTerm_iterms {db : DB} (hD : DictInv db)
    (hgood : ∀ e ∈ db.terms, (decode db.base e.2).map (encode db.base) = .ok e.2)
    {x : Nat} {t : Term} (h : db.getTerm x = .ok t) :
    kvGet db.iterms (encode db.base t) = some x := by
  unfold DB.getTerm at h
  cases hbt : kvGet db.terms x with
  | none =>
    rw [hbt] at h
    have h2 : Except.error Err.notFound = Except.ok t := h
    cases h2
  | some bt =>
    rw [hbt] at h
    have h : decode db.base bt = Except.ok t := h
    have hg := hgood _ (kvGet_mem hbt)
    rw [h, Except.map, Except.ok.injEq] at hg
    obtain ⟨-, -, hfwd, -, -, -⟩ := hD
    have := hfwd _ (kvGet_mem hbt)
    rw [hg]
    exact this

theorem spoObjLoop_ok {db : DB} {node pu : Bytes} :
    ∀ (bm : List Nat) (g : List Triple),
    (∀ o ∈ bm, ∃ t : Term, db.getTerm o = .ok t) →
    ∃ g2, spoObjLoop db node (.uri pu) bm g = (g2, none) ∧
      ∀ tr : Triple, tr ∈ g2 ↔ (tr ∈ g ∨ ∃ o ∈ bm, ∃ t : Term,
        db.getTerm o = .ok t ∧ tr = ⟨node, pu, t⟩) := by
  intro bm
  induction bm with
  | nil =>
    intro g hdec
    refine ⟨g, rfl, ?_⟩
    intro tr
    simp
  | cons o rest ih =>
    intro g hdec
    obtain ⟨t, ht⟩ := hdec o (List.mem_cons_self _ _)
    have hkd : ∃ bt, kvGet db.terms o = some bt ∧ decode db.base bt = .ok t := by
      unfold DB.getTerm at ht
      cases hbt : kvGet db.terms o with
      | none => rw [hbt] at ht; cases ht
      | some bt =>
        rw [hbt] at ht
        exact ⟨bt, rfl, ht⟩
    obtain ⟨bt, hbt, hd⟩ := hkd
    obtain ⟨g2, hrun, hmem⟩ :=
      ih (gInsert g ⟨node, pu, t⟩) (fun o2 ho2 => hdec o2 (List.mem_cons_of_mem _ ho2))
    refine ⟨g2, ?_, ?_⟩
    · show spoObjLoop db node (.uri pu) (o :: rest) g = (g2, none)
      simp only [spoObjLoop, hbt, hd]
      exact hrun
    · intro tr
      rw [hmem tr, mem_gInsert]
      constructor
      · rintro ((hg | rfl) | ⟨o2, ho2, t2, ht2, rfl⟩)
        · exact Or.inl hg
        · exact Or.inr ⟨o, List.mem_cons_self _ _, t, ht, rfl⟩
        · exact Or.inr ⟨o2, List.mem_cons_of_mem _ ho2, t2, ht2, rfl⟩
      · rintro (hg | ⟨o2, ho2, t2, ht2, htr⟩)
        · exact Or.inl (Or.inl hg)
        · rcases List.mem_cons.mp ho2 with rfl | ho3
          · rw [ht, Except.ok.injEq] at ht2
            rw [← ht2] at htr
            exact Or.inl (Or.inr htr)
          · exact Or.inr ⟨o2, ho3, t2, ht2, htr⟩

theorem spoScan_ok {db : DB} (hI : InvS db) {node : Bytes} {sid : Nat}
    (huri : ∀ e ∈ db.spo, isUriId db e.1.1 = true ∧ isUriId db e.1.2 = true)
    (hgood : ∀ e ∈ db.terms, (decode db.base e.2).map (encode db.base) = .ok e.2) :
    ∀ (l : List ((Nat × Nat) × List Nat)), kvSorted pairLt l →
    (∀ e ∈ l, e ∈ db.spo) → ∀ (g : List Triple),
    ∃ g2, spoScan db node sid l g = (g2, none) ∧
      ∀ tr : Triple, tr ∈ g2 ↔ (tr ∈ g ∨ ∃ e ∈ l, e.1.1 = sid ∧ ∃ o ∈ e.2,
        ∃ pu t, db.getTerm e.1.2 = .ok (.uri pu) ∧ db.getTerm o = .ok t ∧
        tr = ⟨node, pu, t⟩) := by
  intro l
  induction l with
  | nil =>
    intro _ _ g
    refine ⟨g, rfl, fun tr => by simp⟩
  | cons e rest ih =>
    obtain ⟨⟨a, b⟩, bm⟩ := e
    intro hsort hsub g
    obtain ⟨hhead, hrest⟩ := List.pairwise_cons.mp hsort
    by_cases ha : a = sid
    · have hespo : ((a, b), bm) ∈ db.spo := hsub _ (List.mem_cons_self _ _)
      obtain ⟨pu, btp, hkv, hdec, henc, hgt⟩ := uriId_getTerm hgood (huri _ hespo).2
      have hobj : ∀ o ∈ bm, ∃ t : Term, db.getTerm o = .ok t := by
        intro o ho
        obtain ⟨t, bt, -, -, -, hgt2⟩ :=
          @good_getTerm db hgood o ((hI.spoRefs _ hespo).2.2 o ho)
        exact ⟨t, hgt2⟩
      obtain ⟨g1, hrun1, hmem1⟩ := spoObjLoop_ok bm g hobj
      obtain ⟨g2, hrun2, hmem2⟩ :=
        ih hrest (fun e2 he2 => hsub _ (List.mem_cons_of_mem _ he2)) g1
      refine ⟨g2, ?_, ?_⟩
      · show spoScan db node sid (((a, b), bm) :: rest) g = (g2, none)
        simp only [spoScan]
        rw [if_pos ha]
        simp only [hkv, hdec]
        rw [hrun1]
        exact hrun2
      · intro tr
        rw [hmem2 tr, hmem1 tr]
        constructor
        · rintro ((hg | ⟨o, ho, t, ht, htr⟩) | ⟨e2, he2, hsid2, r2⟩)
          · exact Or.inl hg
          · exact Or.inr ⟨((a, b), bm), List.mem_cons_self _ _, ha, o, ho, pu, t, hgt, ht, htr⟩
          · exact Or.inr ⟨e2, List.mem_cons_of_mem _ he2, hsid2, r2⟩
        · rintro (hg | ⟨e2, he2, hsid2, o, ho, pu2, t2, hgt2, ht2, htr⟩)
          · exact Or.inl (Or.inl hg)
          · rcases List.mem_cons.mp he2 with rfl | he3
            · have hgt3 : db.getTerm b = .ok (.uri pu2) := hgt2
              rw [hgt, Except.ok.injEq, Term.uri.injEq] at hgt3
              subst hgt3
              exact Or.inl (Or.inr ⟨o, ho, t2, ht2, htr⟩)
            · exact Or.inr ⟨e2, he3, hsid2, o, ho, pu2, t2, hgt2, ht2, htr⟩
    · by_cases hlt : sid < a
      · refine ⟨g, ?_, ?_⟩
        · show spoScan db node sid (((a, b), bm) :: rest) g = (g, none)
          simp only [spoScan]
          rw [if_neg ha, if_pos hlt]
        · intro tr
          constructor
          · exact fun h => Or.inl h
          · rintro (hg | ⟨e2, he2, hsid2, -⟩)
            · exact hg
            · rcases List.mem_cons.mp he2 with rfl | he3
              · exact (ha hsid2).elim
              · have h6 : a < e2.1.1 ∨ (a = e2.1.1 ∧ b < e2.1.2) := by
                  simpa [pairLt] using hhead _ he3
                have h7 : e2.1.1 = sid := hsid2
                rcases h6 with h6 | ⟨h6, -⟩ <;> omega
      · have halt : a < sid := by omega
        obtain ⟨g2, hrun2, hmem2⟩ :=
          ih hrest (fun e2 he2 => hsub _ (List.mem_cons_of_mem _ he2)) g
        refine ⟨g2, ?_, ?_⟩
        · show spoScan db node sid (((a, b), bm) :: rest) g = (g2, none)
          simp only [spoScan]
          rw [if_neg ha, if_neg hlt]
          exact hrun2
        · intro tr
          rw [hmem2 tr]
          constructor
          · rintro (hg | ⟨e2, he2, hsid2, r2⟩)
            · exact Or.inl hg
            · exact Or.inr ⟨e2, List.mem_cons_of_mem _ he2, hsid2, r2⟩
          · rintro (hg | ⟨e2, he2, hsid2, r2⟩)
            · exact Or.inl hg
            · rcases List.mem_cons.mp he2 with rfl | he3
              · exact absurd hsid2 ha
              · exact Or.inr ⟨e2, he3, hsid2, r2⟩

theorem ospPredLoop_ok {db : DB} {node su : Bytes} :
    ∀ (bm : List Nat) (g : List Triple),
    (∀ p ∈ bm, ∃ pu : Bytes, db.getTerm p = .ok (.uri pu)) →
    ∃ g2, ospPredLoop db node (.uri su) bm g = (g2, none) ∧
      ∀ tr : Triple, tr ∈ g2 ↔ (tr ∈ g ∨ ∃ p ∈ bm, ∃ pu : Bytes,
        db.getTerm p = .ok (.uri pu) ∧ tr = ⟨su, pu, .uri node⟩) := by
  intro bm
  induction bm with
  | nil =>
    intro g hdec
    refine ⟨g, rfl, ?_⟩
    intro tr
    simp
  | cons p rest ih =>
    intro g hdec
    obtain ⟨pu, ht⟩ := hdec p (List.mem_cons_self _ _)
    have hkd : ∃ bt, kvGet db.terms p = some bt ∧ decode db.base bt = .ok (.uri pu) := by
      unfold DB.getTerm at ht
      cases hbt : kvGet db.terms p with
      | none => rw [hbt] at ht; cases ht
      | some bt =>
        rw [hbt] at ht
        exact ⟨bt, rfl, ht⟩
    obtain ⟨bt, hbt, hd⟩ := hkd
    obtain ⟨g2, hrun, hmem⟩ :=
      ih (gInsert g ⟨su, pu, .uri node⟩) (fun p2 hp2 => hdec p2 (List.mem_cons_of_mem _ hp2))
    refine ⟨g2, ?_, ?_⟩
    · show ospPredLoop db node (.uri su) (p :: rest) g = (g2, none)
      simp only [ospPredLoop, hbt, hd]
      exact hrun
    · intro tr
      rw [hmem tr, mem_gInsert]
      constructor
      · rintro ((hg | rfl) | ⟨p2, hp2, pu2, ht2, rfl⟩)
        · exact Or.inl hg
        · exact Or.inr ⟨p, List.mem_cons_self _ _, pu, ht, rfl⟩
        · exact Or.inr ⟨p2, List.mem_cons_of_mem _ hp2, pu2, ht2, rfl⟩
      · rintro (hg | ⟨p2, hp2, pu2, ht2, htr⟩)
        · exact Or.inl (Or.inl hg)
        · rcases List.mem_cons.mp hp2 with rfl | hp3
          · rw [ht, Except.ok.injEq, Term.uri.injEq] at ht2
            rw [← ht2] at htr
            exact Or.inl (Or.inr htr)
          · exact Or.inr ⟨p2, hp3, pu2, ht2, htr⟩

theorem ospScan_ok {db : DB} (hI : InvS db) {node : Bytes} {sid : Nat}
    (huri : ∀ e ∈ db.spo, isUriId db e.1.1 = true ∧ isUriId db e.1.2 = true)
    (hgood : ∀ e ∈ db.terms, (decode db.base e.2).map (encode db.base) = .ok e.2) :
    ∀ (l : List ((Nat × Nat) × List Nat)), kvSorted pairLt l →
    (∀ e ∈ l, e ∈ db.osp) → ∀ (g : List Triple),
    ∃ g2, ospScan db node sid l g = (g2, none) ∧
      ∀ tr : Triple, tr ∈ g2 ↔ (tr ∈ g ∨ ∃ e ∈ l, e.1.1 = sid ∧ ∃ p ∈ e.2,
        ∃ su pu, db.getTerm e.1.2 = .ok (.uri su) ∧ db.getTerm p = .ok (.uri pu) ∧
        tr = ⟨su, pu, .uri node⟩) := by
  intro l
  induction l with
  | nil =>
    intro _ _ g
    refine ⟨g, rfl, fun tr => by simp⟩
  | cons e rest ih =>
    obtain ⟨⟨a, b⟩, bm⟩ := e
    intro hsort hsub g
    obtain ⟨hhead, hrest⟩ := List.pairwise_cons.mp hsort
    by_cases ha : a = sid
    · have heosp : ((a, b), bm) ∈ db.osp := hsub _ (List.mem_cons_self _ _)
      have hspoOf : ∀ p ∈ bm, ∃ bm2, ((b, p), bm2) ∈ db.spo := by
        intro p hp
        have hx : idxHas db.osp a b p = true :=
          (idxHas_iff_mem hI.ospSorted).mpr ⟨bm, heosp, hp⟩
        obtain ⟨bm2, hbm2, -⟩ := (idxHas_iff_mem hI.spoSorted).mp (agreeOsp_forall hI hx)
        exact ⟨bm2, hbm2⟩
      obtain ⟨p0, hp0⟩ := List.exists_mem_of_ne_nil bm (hI.ospBm _ heosp).2
      obtain ⟨bm0, hbm0⟩ := hspoOf p0 hp0
      obtain ⟨su, bts, hkv, hdec, henc, hgt⟩ := uriId_getTerm hgood (huri _ hbm0).1
      have hpred : ∀ p ∈ bm, ∃ pu : Bytes, db.getTerm p = .ok (.uri pu) := by
        intro p hp
        obtain ⟨bm2, hbm2⟩ := hspoOf p hp
        obtain ⟨pu, btp, -, -, -, hgt2⟩ := uriId_getTerm hgood (huri _ hbm2).2
        exact ⟨pu, hgt2⟩
      obtain ⟨g1, hrun1, hmem1⟩ := ospPredLoop_ok bm g hpred
      obtain ⟨g2, hrun2, hmem2⟩ :=
        ih hrest (fun e2 he2 => hsub _ (List.mem_cons_of_mem _ he2)) g1
      refine ⟨g2, ?_, ?_⟩
      · show ospScan db node sid (((a, b), bm) :: rest) g = (g2, none)
        simp only [ospScan]
        rw [if_pos ha]
        simp only [hkv, hdec]
        rw [hrun1]
        exact hrun2
      · intro tr
        rw [hmem2 tr, hmem1 tr]
        constructor
        · rintro ((hg | ⟨p, hp, pu, ht, htr⟩) | ⟨e2, he2, hsid2, r2⟩)
          · exact Or.inl hg
          · exact Or.inr ⟨((a, b), bm), List.mem_cons_self _ _, ha, p, hp, su, pu, hgt, ht, htr⟩
          · exact Or.inr ⟨e2, List.mem_cons_of_mem _ he2, hsid2, r2⟩
        · rintro (hg | ⟨e2, he2, hsid2, p, hp, su2, pu2, hgt2, ht2, htr⟩)
          · exact Or.inl (Or.inl hg)
          · rcases List.mem_cons.mp he2 with rfl | he3
            · have hgt3 : db.getTerm b = .ok (.uri su2) := hgt2
              rw [hgt, Except.ok.injEq, Term.uri.injEq] at hgt3
              subst hgt3
              exact Or.inl (Or.inr ⟨p, hp, pu2, ht2, htr⟩)
            · exact Or.inr ⟨e2, he3, hsid2, p, hp, su2, pu2, hgt2, ht2, htr⟩
    · by_cases hlt : sid < a
      · refine ⟨g, ?_, ?_⟩
        · show ospScan db node sid (((a, b), bm) :: rest) g = (g, none)
          simp only [ospScan]
          rw [if_neg ha, if_pos hlt]
        · intro tr
          constructor
          · exact fun h => Or.inl h
          · rintro (hg | ⟨e2, he2, hsid2, -⟩)
            · exact hg
            · rcases List.mem_cons.mp he2 with rfl | he3
              · exact (ha hsid2).elim
              · have h6 : a < e2.1.1 ∨ (a = e2.1.1 ∧ b < e2.1.2) := by
                  simpa [pairLt] using hhead _ he3
                have h7 : e2.1.1 = sid := hsid2
                rcases h6 with h6 | ⟨h6, -⟩ <;> omega
      · have halt : a < sid := by omega
        obtain ⟨g2, hrun2, hmem2⟩ :=
          ih hrest (fun e2 he2 => hsub _ (List.mem_cons_of_mem _ he2)) g
        refine ⟨g2, ?_, ?_⟩
        · show ospScan db node sid (((a, b), bm) :: rest) g = (g2, none)
          simp only [ospScan]
          rw [if_neg ha, if_neg hlt]
          exact hrun2
        · intro tr
          rw [hmem2 tr]
          constructor
          · rintro (hg | ⟨e2, he2, hsid2, r2⟩)
            · exact Or.inl hg
            · exact Or.inr ⟨e2, List.mem_cons_of_mem _ he2, hsid2, r2⟩
          · rintro (hg | ⟨e2, he2, hsid2, r2⟩)
            · exact Or.inl hg
            · rcases List.mem_cons.mp he2 with rfl | he3
              · exact absurd hsid2 ha
              · exact Or.inr ⟨e2, he3, hsid2, r2⟩

theorem mem_dropWhile_of_key {m : List ((Nat × Nat) × List Nat)} {q sid : Nat}
    (hq : q < sid) {e : (Nat × Nat) × List Nat} (he : e ∈ m) (hsid : e.1.1 = sid) :
    e ∈ m.dropWhile (fun x => decide (x.1.1 < q)) := by
  rw [← List.takeWhile_append_dropWhile (p := fun x => decide (x.1.1 < q)) (l := m)] at he
  rcases List.mem_append.mp he with h2 | h2
  · have h3 := List.mem_takeWhile_imp h2
    simp only [decide_eq_true_eq] at h3
    omega
  · exact h2

/-- C6: on a database satisfying the state invariant whose stored term
bytes decode-and-reencode to themselves and whose SPO key slots hold
encoded URIs, Describe returns no error; an unknown node yields the empty
graph; and the returned graph holds exactly the triples of the logical
triple set with the node as subject, plus, when asObject is set, those with
the node as object. -/
theorem C6_describe_parity {db : DB} (hI : InvS db)
    (hgood : ∀ e ∈ db.terms, (decode db.base e.2).map (encode db.base) = .ok e.2)
    (huri : ∀ e ∈ db.spo, isUriId db e.1.1 = true ∧ isUriId db e.1.2 = true)
    (node : Bytes) (asObject : Bool) :
    (db.Describe node asObject).2 = none ∧
    (kvGet db.iterms (encode db.base (.uri node)) = none →
      db.Describe node asObject = ([], none)) ∧
    (∀ tr : Triple, tr ∈ (db.Describe node asObject).1 ↔
      ((tr.subj = node ∧ inTripleSet db tr) ∨
       (asObject = true ∧ tr.obj = .uri node ∧ inTripleSet db tr))) := by
  cases hsid : kvGet db.iterms (encode db.base (.uri node)) with
  | none =>
    have hres : db.Describe node asObject = ([], none) := by
      unfold DB.Describe
      simp only [hsid]
    refine ⟨by rw [hres], fun _ => hres, ?_⟩
    intro tr
    rw [hres]
    simp only [List.not_mem_nil, false_iff]
    rintro (⟨hsubj, hT⟩ | ⟨-, hobj, hT⟩)
    · unfold inTripleSet at hT
      obtain ⟨s, p, o, hhas, hs, hp, ho⟩ := hT
      rw [hsubj] at hs
      rw [getTerm_iterms hI.dict hgood hs] at hsid
      cases hsid
    · unfold inTripleSet at hT
      obtain ⟨s, p, o, hhas, hs, hp, ho⟩ := hT
      rw [hobj] at ho
      rw [getTerm_iterms hI.dict hgood ho] at hsid
      cases hsid
  | some sid =>
    obtain ⟨hterm, hb1, hb2⟩ : kvGet db.terms sid = some (encode db.base (.uri node)) ∧
        1 ≤ sid ∧ sid ≤ MaxTerms := by
      obtain ⟨-, -, -, hbwd, -, -⟩ := hI.dict
      have h1 := hbwd _ (kvGet_mem hsid)
      have h2 := @isSome_bound db hI.dict sid (by rw [h1]; rfl)
      exact ⟨h1, h2.1, h2.2⟩
    have hgt_sid : db.getTerm sid = .ok (.uri node) := by
      unfold DB.getTerm
      rw [hterm]
      exact uri_roundtrip db.base node
    have harith : (sid + 4294967295) % 4294967296 = sid - 1 := by
      have hb2b : sid ≤ 4294967295 := hb2
      omega
    have hqlt : sid - 1 < sid := by omega
    have hsortS : kvSorted pairLt (db.spo.dropWhile (fun x => decide (x.1.1 < sid - 1))) :=
      List.Pairwise.sublist (List.dropWhile_sublist _) hI.spoSorted
    have hsubS : ∀ e ∈ db.spo.dropWhile (fun x => decide (x.1.1 < sid - 1)), e ∈ db.spo :=
      fun e he => (List.dropWhile_sublist _).subset he
    obtain ⟨g1, hrun1, hmem1⟩ :=
      @spoScan_ok db hI node sid huri hgood _ hsortS hsubS []
    have hsubjBridge : ∀ tr : Triple,
        (∃ e ∈ db.spo.dropWhile (fun x => decide (x.1.1 < sid - 1)), e.1.1 = sid ∧
          ∃ o ∈ e.2, ∃ pu t, db.getTerm e.1.2 = .ok (.uri pu) ∧ db.getTerm o = .ok t ∧
          tr = ⟨node, pu, t⟩) ↔ (tr.subj = node ∧ inTripleSet db tr) := by
      intro tr
      constructor
      · rintro ⟨⟨⟨a, b⟩, bm⟩, heW, hesid, o, ho, pu, t, hgtp, hgto, rfl⟩
        have ha : a = sid := hesid
        subst ha
        refine ⟨rfl, ?_⟩
        unfold inTripleSet
        exact ⟨a, b, o, (idxHas_iff_mem hI.spoSorted).mpr ⟨bm, hsubS _ heW, ho⟩,
          hgt_sid, hgtp, hgto⟩
      · rintro ⟨hsubj, hT⟩
        unfold inTripleSet at hT
        obtain ⟨s, p, o, hhas, hs, hp, ho⟩ := hT
        rw [hsubj] at hs
        have hxeq : s = sid := by
          have h3 := getTerm_iterms hI.dict hgood hs
          rw [hsid, Option.some.injEq] at h3
          exact h3.symm
        subst hxeq
        obtain ⟨bm0, hbm0, ho0⟩ := (idxHas_iff_mem hI.spoSorted).mp hhas
        refine ⟨((s, p), bm0), mem_dropWhile_of_key hqlt hbm0 rfl, rfl, o, ho0,
          tr.pred, tr.obj, hp, ho, ?_⟩
        rw [← hsubj]
    cases asObject with
    | false =>
      have hres : db.Describe node false = (g1, none) := by
        unfold DB.Describe
        simp only [hsid]
        rw [harith, hrun1]
        rfl
      have hfst : (db.Describe node false).1 = g1 := by rw [hres]
      refine ⟨by rw [hres], ?_, ?_⟩
      · intro hcon
        cases hcon
      intro tr
      rw [hfst, hmem1 tr]
      simp only [List.not_mem_nil, false_or]
      rw [hsubjBridge tr]
      constructor
      · exact fun h => Or.inl h
      · rintro (h | ⟨hcon, -⟩)
        · exact h
        · cases hcon
    | true =>
      have hsortO : kvSorted pairLt (db.osp.dropWhile (fun x => decide (x.1.1 < sid - 1))) :=
        List.Pairwise.sublist (List.dropWhile_sublist _) hI.ospSorted
      have hsubO : ∀ e ∈ db.osp.dropWhile (fun x => decide (x.1.1 < sid - 1)), e ∈ db.osp :=
        fun e he => (List.dropWhile_sublist _).subset he
      obtain ⟨g2, hrun2, hmem2⟩ :=
        @ospScan_ok db hI node sid huri hgood _ hsortO hsubO g1
      have hobjBridge : ∀ tr : Triple,
          (∃ e ∈ db.osp.dropWhile (fun x => decide (x.1.1 < sid - 1)), e.1.1 = sid ∧
            ∃ p ∈ e.2, ∃ su pu, db.getTerm e.1.2 = .ok (.uri su) ∧
            db.getTerm p = .ok (.uri pu) ∧ tr = ⟨su, pu, .uri node⟩) ↔
          (tr.obj = .uri node ∧ inTripleSet db tr) := by
        intro tr
        constructor
        · rintro ⟨⟨⟨a, b⟩, bm⟩, heW, hesid, p, hp, su, pu, hgts, hgtp, rfl⟩
          have ha : a = sid := hesid
          subst ha
          refine ⟨rfl, ?_⟩
          unfold inTripleSet
          have hospHas : idxHas db.osp a b p = true :=
            (idxHas_iff_mem hI.ospSorted).mpr ⟨bm, hsubO _ heW, hp⟩
          exact ⟨b, p, a, agreeOsp_forall hI hospHas, hgts, hgtp, hgt_sid⟩
        · rintro ⟨hobj, hT⟩
          unfold inTripleSet at hT
          obtain ⟨s, p, o, hhas, hs, hp, ho⟩ := hT
          rw [hobj] at ho
          have hxeq : o = sid := by
            have h3 := getTerm_iterms hI.dict hgood ho
            rw [hsid, Option.some.injEq] at h3
            exact h3.symm
          subst hxeq
          obtain ⟨bm0, hbm0, hp0⟩ := (idxHas_iff_mem hI.ospSorted).mp
            ((agreeSpo_forall hI hhas).1)
          refine ⟨((o, s), bm0), mem_dropWhile_of_key hqlt hbm0 rfl, rfl, p, hp0,
            tr.subj, tr.pred, hs, hp, ?_⟩
          rw [← hobj]
      have hres : db.Describe node true = (g2, none) := by
        unfold DB.Describe
        simp only [hsid]
        rw [harith, hrun1]
        show ospScan db node sid (db.osp.dropWhile (fun x => decide (x.1.1 < sid - 1)))
          g1 = (g2, none)
        exact hrun2
      have hfst : (db.Describe node true).1 = g2 := by rw [hres]
      refine ⟨by rw [hres], ?_, ?_⟩
      · intro hcon
        cases hcon
      intro tr
      rw [hfst, hmem2 tr, hmem1 tr]
      simp only [List.not_mem_nil, false_or]
      rw [hsubjBridge tr, hobjBridge tr]
      constructor
      · rintro (h | h)
        · exact Or.inl h
        · exact Or.inr ⟨trivial, h⟩
      · rintro (h | ⟨-, h⟩)
        · exact Or.inl h
        · exact Or.inr h

set_option maxRecDepth 100000 in
theorem C6_describe_parity_witness :
    (wDB6.Describe wNode6 true).2 = none ∧
    (kvGet wDB6.iterms (encode wDB6.base (.uri wNode6)) = none →
      wDB6.Describe wNode6 true = ([], none)) ∧
    (∀ tr : Triple, tr ∈ (wDB6.Describe wNode6 true).1 ↔
      ((tr.subj = wNode6 ∧ inTripleSet wDB6 tr) ∨
       (true = true ∧ tr.obj = .uri wNode6 ∧ inTripleSet wDB6 tr))) :=
  C6_describe_parity (by decide) (by decide) (by decide) wNode6 true
